import Mathlib

/-!
# doctest-extended: stream interception and text normalisation

A shallow embedding of `src/doctest-grading-extensions.h` (and of `get_name` from
`example/example.cpp`), followed by theorems about it.

Conventions of the embedding:

* a `std::string` is the list of its characters (`Str`);
* a position returned by the `std::string` search members is an `Option Nat`,
  where `none` stands for `std::string::npos`;
* a `std::out_of_range` exception and a loop that exhausts its iteration budget
  are both the result `none` of an `Option`-valued function;
* streams are explicit records; the stream buffer a stream is attached to
  (`rdbuf()`) is a value of `StreamBuf`.
-/

namespace DoctestExt

/-! ## Strings and the `std::string` members used by the header -/

/-- A `std::string`, as the list of its characters. -/
abbrev Str := List Char

/-- The value of `std::string::npos` on a 64-bit target. -/
def npos : Nat := 2 ^ 64 - 1

/-- Membership of a character in a character set passed as a string. -/
def inSet (set : Str) (c : Char) : Bool := set.contains c

/-- Index of the first character of `s` that satisfies `p`. -/
def firstIdx (p : Char → Bool) : Str → Option Nat
  | [] => none
  | c :: cs => if p c then some 0 else (firstIdx p cs).map (· + 1)

/-- Model of `s.find_first_of(set, pos)`. -/
def find_first_of (s set : Str) (pos : Nat) : Option Nat :=
  (firstIdx (fun c => inSet set c) (s.drop pos)).map (· + pos)

/-- Model of `s.find_first_not_of(set, pos)`. -/
def find_first_not_of (s set : Str) (pos : Nat) : Option Nat :=
  (firstIdx (fun c => !inSet set c) (s.drop pos)).map (· + pos)

/-- Model of `s.find_last_not_of(set)`. -/
def find_last_not_of (s set : Str) : Option Nat :=
  (firstIdx (fun c => !inSet set c) s.reverse).map (fun i => s.length - 1 - i)

/-- Model of `s.substr(pos, n)`: `none` is the `std::out_of_range` thrown when
`pos > s.size()`; the count is clamped to the end of the string. -/
def substr (s : Str) (pos n : Nat) : Option Str :=
  if pos ≤ s.length then some ((s.drop pos).take (min n (s.length - pos))) else none

/-- Model of `s.replace(pos, len, str)`: `none` is the `std::out_of_range` thrown
when `pos > s.size()`; the length is clamped to the end of the string. -/
def replace (s : Str) (pos len : Nat) (str : Str) : Option Str :=
  if pos ≤ s.length then
    some (s.take pos ++ str ++ s.drop (pos + min len (s.length - pos)))
  else none

/-! ## Character classification (`<cctype>`, "C" locale) -/

/-- Model of `isspace`: space, `\t`, `\n`, `\v`, `\f`, `\r`. -/
def isspace (c : Char) : Bool := c.toNat = 32 || (9 ≤ c.toNat && c.toNat ≤ 13)

/-- Model of `ispunct`: the printable characters that are neither alphanumeric nor
the space. -/
def ispunct (c : Char) : Bool :=
  (33 ≤ c.toNat && c.toNat ≤ 47) || (58 ≤ c.toNat && c.toNat ≤ 64) ||
  (91 ≤ c.toNat && c.toNat ≤ 96) || (123 ≤ c.toNat && c.toNat ≤ 126)

/-! ## Text normalisation -/

/-- Model of `__s_trim_ws(str, whitespace)`. -/
def __s_trim_ws (str : Str) (whitespace : Str := " \t".toList) : Option Str :=
  match find_first_not_of str whitespace 0 with
  | none => some []
  | some strBegin =>
    let strEnd := find_last_not_of str whitespace
    let strRange :=
      match strEnd with
      | some e => e - strBegin + 1
      | none => (npos - strBegin + 1) % 2 ^ 64
    substr str strBegin strRange

/-- The `while ( beginSpace != npos )` loop of `__s_reduce_ws`, on the loop state
`(result, beginSpace)`. The first argument bounds the number of iterations; `none`
is returned when the bound is exhausted or when `replace` throws. -/
def reduce_ws_loop (fill whitespace : Str) : Nat → Str → Option Nat → Option Str
  | _, result, none => some result
  | 0, _, some _ => none
  | fuel + 1, result, some beginSpace =>
    let endSpace := find_first_not_of result whitespace beginSpace
    let range :=
      match endSpace with
      | some e => e - beginSpace
      | none => npos - beginSpace
    match replace result beginSpace range fill with
    | none => none
    | some result1 =>
      let newStart := beginSpace + fill.length
      reduce_ws_loop fill whitespace fuel result1 (find_first_of result1 whitespace newStart)

/-- Model of `__s_reduce_ws(str, fill, whitespace)`. The loop is given one iteration
per character of the trimmed string. -/
def __s_reduce_ws (str : Str) (fill : Str := " ".toList)
    (whitespace : Str := " \t\r\n".toList) : Option Str :=
  match __s_trim_ws str whitespace with
  | none => none
  | some result =>
    reduce_ws_loop fill whitespace result.length result (find_first_of result whitespace 0)

/-- Model of `__s_remove_ws(str)`. -/
def __s_remove_ws (str : Str) : Str :=
  str.foldl (fun result ch => if !isspace ch then result ++ [ch] else result) []

/-- The punctuation-stripping loop shared by `__s_collapse` and
`__s_multiline_collapse`: `for ( auto c : tmp ) if ( keep_punct || !ispunct( c ) ) out += c;`. -/
def strip_loop (keep_punct : Bool) (tmp : Str) : Str :=
  tmp.foldl (fun out c => if keep_punct || !ispunct c then out ++ [c] else out) []

/-- Model of `__s_collapse(s, keep_punct, keep_space)`. -/
def __s_collapse (s : Str) (keep_punct : Bool := true) (keep_space : Bool := true) :
    Option Str :=
  match (if keep_space then __s_reduce_ws s else some (__s_remove_ws s)) with
  | none => none
  | some tmp => some (strip_loop keep_punct tmp)

/-! ## Input streams and `std::getline` -/

/-- An input stream: the characters not yet extracted from its buffer, and the
`eofbit` and `failbit` of its state. -/
structure IStream where
  buf : Str
  eofbit : Bool
  failbit : Bool
deriving DecidableEq

/-- Model of `std::getline(is, line)`; returns the stream and the new value of `line`.
When the stream is not `good()` the sentry sets `failbit` and `line` is left as it
was. Otherwise `line` is erased and characters are extracted up to and including the
first line feed (which is not stored); reaching the end of the buffer sets `eofbit`,
and extracting no character at all sets `failbit`. -/
def getline (is : IStream) (line : Str) : IStream × Str :=
  if is.eofbit || is.failbit then
    ({ is with failbit := true }, line)
  else
    match firstIdx (fun c => c == '\n') is.buf with
    | some i => ({ is with buf := is.buf.drop (i + 1) }, is.buf.take i)
    | none => ({ buf := [], eofbit := true, failbit := is.buf.isEmpty }, is.buf)

/-- The `for ( std::string line; getline( _iss, line ); )` loop of
`__s_multiline_collapse`, on the state `(_iss, line, out)`. The first argument bounds
the number of calls of `getline`. -/
def multiline_loop (keep_punct : Bool) : Nat → IStream → Str → Str → Option Str
  | 0, _, _, _ => none
  | fuel + 1, iss, line, out =>
    let r := getline iss line
    if r.1.failbit then some out
    else
      match __s_reduce_ws r.2 with
      | none => none
      | some tmp =>
        let line_out := strip_loop keep_punct tmp
        multiline_loop keep_punct fuel r.1 r.2
          (if line_out != ['\n'] then out ++ line_out else out)

/-- Model of `__s_multiline_collapse(s, keep_punct)`. Every successful `getline`
extracts at least one character, so one call per character and a last failing one
are provided. -/
def __s_multiline_collapse (s : Str) (keep_punct : Bool := true) : Option Str :=
  multiline_loop keep_punct (s.length + 1) { buf := s, eofbit := false, failbit := false } [] []

/-! ## Stream redirection: `__capture_stdout` -/

/-- A non-null `std::streambuf*`: a buffer that lives outside the instance at hand,
identified by a number, or the buffer of the instance's own string stream
(`oss.rdbuf()`, `iss.rdbuf()`). -/
inductive StreamBuf
  | external (id : Nat)
  | own
deriving DecidableEq

/-- `std::cout` together with one `__capture_stdout` instance: the buffer `std::cout`
writes to, the contents of the member `oss`, the member `p_cout_streambuf` (`none` is
`nullptr`), and the text that has reached external buffers, oldest first. -/
structure Capture where
  cout_rdbuf : StreamBuf
  oss : Str
  p_cout_streambuf : Option StreamBuf
  delivered : List (Nat × Str)
deriving DecidableEq

namespace Capture

/-- Default construction of a `__capture_stdout` while `std::cout` writes to the
external buffer `dest`. -/
def construct (dest : Nat) (delivered : List (Nat × Str)) : Capture :=
  { cout_rdbuf := StreamBuf.external dest, oss := [], p_cout_streambuf := none,
    delivered := delivered }

/-- The statement `std::cout << text`: the text goes to the buffer `std::cout` is
attached to. -/
def cout_write (st : Capture) (text : Str) : Capture :=
  match st.cout_rdbuf with
  | StreamBuf.own => { st with oss := st.oss ++ text }
  | StreamBuf.external id => { st with delivered := st.delivered ++ [(id, text)] }

/-- Model of `__capture_stdout::begin_capture()` (aliases `begin`, `start`). -/
def begin_capture (st : Capture) : Capture :=
  { st with oss := [], p_cout_streambuf := some st.cout_rdbuf, cout_rdbuf := StreamBuf.own }

/-- Model of `__capture_stdout::end_capture()` (alias `end`); returns the state and the
returned string. -/
def end_capture (st : Capture) : Capture × Str :=
  let st1 : Capture :=
    match st.p_cout_streambuf with
    | some p => { st with cout_rdbuf := p, p_cout_streambuf := none }
    | none => st
  ({ st1 with oss := [] }, st1.oss)

/-- Model of `~__capture_stdout()`, which calls `end_capture()`. -/
def destroy (st : Capture) : Capture := (end_capture st).1

/-- One action on `std::cout` and the instance. -/
inductive Op
  | begin_capture
  | end_capture
  | write (text : Str)
deriving DecidableEq

/-- Effect of one action. -/
def step (st : Capture) : Op → Capture
  | Op.begin_capture => st.begin_capture
  | Op.end_capture => st.end_capture.1
  | Op.write text => st.cout_write text

/-- Effect of a sequence of actions, first to last. -/
def run (st : Capture) (ops : List Op) : Capture := ops.foldl step st

end Capture

/-! ## Stream redirection: `__simulate_stdin` -/

/-- `std::cin` together with one `__simulate_stdin` instance: the buffer `std::cin`
reads from and its `eofbit` and `failbit`, the unread characters of the member `iss`
and of the external buffers, and the members `p_cin_streambuf` (constant) and
`p_sim_streambuf` (`none` is `nullptr`). -/
structure Simulation where
  cin_rdbuf : StreamBuf
  cin_eofbit : Bool
  cin_failbit : Bool
  iss : Str
  external_input : Nat → Str
  p_cin_streambuf : StreamBuf
  p_sim_streambuf : Option StreamBuf

namespace Simulation

/-- Default construction of a `__simulate_stdin` while `std::cin` reads from the
external buffer `src`: `p_cin_streambuf` is initialised with `std::cin.rdbuf()`. -/
def construct (src : Nat) (eofbit failbit : Bool) (external_input : Nat → Str) : Simulation :=
  { cin_rdbuf := StreamBuf.external src, cin_eofbit := eofbit, cin_failbit := failbit,
    iss := [], external_input := external_input,
    p_cin_streambuf := StreamBuf.external src, p_sim_streambuf := none }

/-- Model of `begin_simulation( const std::istringstream& input_strm )` (aliases `begin`,
`start`); the argument is `input_strm.rdbuf()`. `std::cin.rdbuf( sb )` also clears the
error state of `std::cin`. -/
def begin_simulation (st : Simulation) (input_strm : StreamBuf) : Simulation :=
  { st with p_sim_streambuf := some input_strm, cin_rdbuf := input_strm,
            cin_eofbit := false, cin_failbit := false }

/-- Model of `begin_simulation( const std::string& input_str )` (aliases `begin`,
`start`). -/
def begin_simulation_str (st : Simulation) (input_str : Str) : Simulation :=
  begin_simulation { st with iss := input_str } StreamBuf.own

/-- Model of `end_simulation()` (alias `end`). -/
def end_simulation (st : Simulation) : Simulation :=
  match st.p_sim_streambuf with
  | some _ => { st with cin_rdbuf := st.p_cin_streambuf, cin_eofbit := false,
                        cin_failbit := false, p_sim_streambuf := none }
  | none => st

/-- Model of `~__simulate_stdin()`, which calls `end_simulation()`. -/
def destroy (st : Simulation) : Simulation := end_simulation st

/-- The unread characters of the buffer `std::cin` is attached to. -/
def cin_buf (st : Simulation) : Str :=
  match st.cin_rdbuf with
  | StreamBuf.own => st.iss
  | StreamBuf.external id => st.external_input id

/-- The call `getline( std::cin, line )` of the code under test. -/
def cin_getline (st : Simulation) (line : Str) : Simulation × Str :=
  let r := getline { buf := st.cin_buf, eofbit := st.cin_eofbit, failbit := st.cin_failbit } line
  let st1 : Simulation := { st with cin_eofbit := r.1.eofbit, cin_failbit := r.1.failbit }
  (match st.cin_rdbuf with
   | StreamBuf.own => { st1 with iss := r.1.buf }
   | StreamBuf.external id =>
     { st1 with external_input := Function.update st.external_input id r.1.buf },
   r.2)

/-- The code under test calls `getline( std::cin, line )` on a fresh `line` `n` times;
each entry is the value of `line` after the call and whether the call succeeded
(`failbit` not set). -/
def cin_read_lines : Nat → Simulation → List (Str × Bool)
  | 0, _ => []
  | n + 1, st =>
    let r := cin_getline st []
    (r.2, !r.1.cin_failbit) :: cin_read_lines n r.1

/-- One action on `std::cin` and the instance. -/
inductive Op
  | begin_strm (id : Nat)
  | begin_str (input_str : Str)
  | end_simulation
  | read_line

/-- Effect of one action. -/
def step (st : Simulation) : Op → Simulation
  | Op.begin_strm id => st.begin_simulation (StreamBuf.external id)
  | Op.begin_str input_str => st.begin_simulation_str input_str
  | Op.end_simulation => st.end_simulation
  | Op.read_line => (st.cin_getline []).1

/-- Effect of a sequence of actions, first to last. -/
def run (st : Simulation) (ops : List Op) : Simulation := ops.foldl step st

end Simulation

/-- Model of `get_name()` of `example/example.cpp`: writes the prompt to `std::cout`,
reads one line from `std::cin` and returns it. -/
def get_name (out : Capture) (inp : Simulation) : Capture × Simulation × Str :=
  let out1 := out.cout_write "Enter your name: ".toList
  let r := inp.cin_getline []
  (out1, r.1, r.2)

/-- The state of `std::cin` right after `begin( s )`: attached to `iss`, which holds `s`,
with a clear error state. -/
def ReadyOn (st : Simulation) (s : Str) : Prop :=
  st.cin_rdbuf = StreamBuf.own ∧ st.cin_eofbit = false ∧ st.cin_failbit = false ∧ st.iss = s

/-! ## Case mapping, substring and element search -/

/-- Model of `isupper` in the "C" locale: the letters `A` to `Z`. -/
def isupper (c : Char) : Bool := 65 ≤ c.toNat && c.toNat ≤ 90

/-- Model of `::tolower` in the "C" locale: `A` to `Z` are moved to `a` to `z`, every other
character is returned as it is. -/
def tolower (c : Char) : Char := if isupper c then Char.ofNat (c.toNat + 32) else c

/-- Model of `__s_lowercase(s)`: `std::transform` over the whole string with `::tolower`. -/
def __s_lowercase (s : Str) : Str := s.map tolower

/-- Whether the characters of `needle` are the first characters of `s`. -/
def matches_at : Str → Str → Bool
  | _, [] => true
  | [], _ :: _ => false
  | c :: cs, n :: ns => c == n && matches_at cs ns

/-- Model of `s.find(needle)`: the first position at which `needle` occurs in `s`; the
empty needle occurs at position 0 of every string. -/
def find : Str → Str → Option Nat
  | [], needle => if needle.isEmpty then some 0 else none
  | c :: cs, needle =>
    if matches_at (c :: cs) needle then some 0 else (find cs needle).map (· + 1)

/-- Model of `__str_contains(haystack, needle)`. -/
def __str_contains (haystack needle : Str) : Bool := find haystack needle != none

/-- Model of `std::find(first, last, value)` on a whole container: the index of the
first element `x` with `x == value`, or the size of the container (`end()`). -/
def std_find {α : Type} [BEq α] : List α → α → Nat
  | [], _ => 0
  | x :: xs, value => if x == value then 0 else std_find xs value + 1

/-- Model of `__contains(c_haystack, value_needle)`. -/
def __contains {α : Type} [BEq α] (c_haystack : List α) (value_needle : α) : Bool :=
  std_find c_haystack value_needle != c_haystack.length

/-! ## Random strings -/

/-- Model of `__rand_int(lower_bound, upper_bound)`, given the value `r` returned by its
call of `rand()`; `%` on `int` truncates towards zero. -/
def __rand_int (lower_bound upper_bound : Int) (r : Nat) : Int :=
  Int.tmod (r : Int) (upper_bound - lower_bound) + lower_bound

/-- The characters of the string literal that initialises `valid_chars`. -/
def valid_chars_literal : Str :=
  "bcdfghjklmnpqrstvwxyzBCDFGHJKLMNPQRSTVWXYZ1234567890~!@#$%^&*-+_=?".toList

/-- The array `valid_chars`: the characters of the literal and its terminating NUL. -/
def valid_chars : Str := valid_chars_literal ++ [Char.ofNat 0]

/-- The `for` loop of `__rand_string`, on the number of iterations still to run, the
number of calls of `rand()` made so far and `result`; `rand k` is the value returned by
call number `k`. `none` is a read outside the array `valid_chars`. -/
def rand_string_loop (rand : Nat → Nat) : Nat → Nat → Str → Option Str
  | 0, _, result => some result
  | remaining + 1, calls, result =>
    let idx := __rand_int 0 66 (rand calls)
    if 0 ≤ idx then
      match valid_chars[idx.toNat]? with
      | some ch => rand_string_loop rand remaining (calls + 1) (result ++ [ch])
      | none => none
    else none

/-- Model of `__rand_string(length)`, where `rand k` is the value returned by the `k`-th
call of `rand()` and `calls` calls were made before. The loop `for ( int i = 0; i <
length; ++i )` runs `length` times, and not at all for a negative `length`. -/
def __rand_string (rand : Nat → Nat) (calls : Nat) (length : Int := 10) : Option Str :=
  rand_string_loop rand length.toNat calls []

/-! ## Reference definitions taken from the specification -/

/-- The lines of `s` as a reader sees them: `s` is cut at every line feed, and the
empty piece after a final line feed (or the only piece of the empty string) is not a
line. -/
def lines_ref (s : Str) : List Str :=
  let pieces := s.splitOnP (fun c => c == '\n')
  if pieces.getLast? = some [] then pieces.dropLast else pieces

/-- A string with no character of `ws` at either end (the empty string included). -/
def Trimmed (ws t : Str) : Prop :=
  (∀ a, t.head? = some a → inSet ws a = false) ∧
  (∀ b, t.getLast? = some b → inSet ws b = false)

/-- The maximal runs of characters of `s` that are not in `ws`, in order: `s` is cut
at every character of `ws` and the empty pieces are dropped. -/
def nonWsRuns (ws s : Str) : List Str :=
  (s.splitOnP (inSet ws)).filter (fun w => !w.isEmpty)

/-- Reference definition of `collapse_whitespace`, from the words of the
specification: the maximal runs of non-whitespace characters, unchanged and in order,
with one copy of `fill` between consecutive runs. -/
def collapse_whitespace_ref (s fill ws : Str) : Str :=
  fill.intercalate (nonWsRuns ws s)

/-- What one line contributes to `multiline_collapse` according to the specification:
its whitespace-collapsed form, without its punctuation unless `keep_punct`. -/
def line_collapse_ref (keep_punct : Bool) (line : Str) : Str :=
  (collapse_whitespace_ref line " ".toList " \t\r\n".toList).filter
    (fun c => keep_punct || !ispunct c)

/-- Reference definition of `multiline_collapse`: `s` is cut at every line feed and
the contributions of the pieces are concatenated with no separator. -/
def multiline_collapse_ref (s : Str) (keep_punct : Bool) : Str :=
  ((s.splitOnP (fun c => c == '\n')).map (line_collapse_ref keep_punct)).flatten

/-- The number of maximal runs of characters of `ws` in `s`: `s` is cut at every
character that is not in `ws` and the non-empty pieces are counted. -/
def wsRunCount (ws s : Str) : Nat :=
  ((s.splitOnP (fun c => !inSet ws c)).filter (fun w => !w.isEmpty)).length

/-! ## Theorems -/

/-! ### Searching -/

theorem inSet_iff (set : Str) (c : Char) : inSet set c = true ↔ c ∈ set := by
  simp [inSet]

theorem inSet_false_iff (set : Str) (c : Char) : inSet set c = false ↔ c ∉ set := by
  simp [inSet]

theorem firstIdx_eq_none_iff (p : Char → Bool) (s : Str) :
    firstIdx p s = none ↔ ∀ c ∈ s, p c = false := by
  induction s with
  | nil => simp [firstIdx]
  | cons a t ih =>
    by_cases h : p a = true
    · simp [firstIdx, h]
    · simp [firstIdx, h, ih]

theorem firstIdx_append_of_all (p : Char → Bool) (l s : Str) (h : ∀ c ∈ l, p c = false) :
    firstIdx p (l ++ s) = (firstIdx p s).map (· + l.length) := by
  induction l with
  | nil => simp
  | cons a t ih =>
    have ha : p a = false := h a (by simp)
    have ht : ∀ c ∈ t, p c = false := fun c hc => h c (by simp [hc])
    rw [List.cons_append, firstIdx, if_neg (by simp [ha]), ih ht]
    cases firstIdx p s <;> simp [Nat.add_assoc]

theorem firstIdx_hit (p : Char → Bool) (l : Str) (c : Char) (s : Str)
    (h : ∀ x ∈ l, p x = false) (hc : p c = true) :
    firstIdx p (l ++ c :: s) = some l.length := by
  rw [firstIdx_append_of_all p l _ h]
  simp [firstIdx, hc]

/-! ### `__s_trim_ws` -/

theorem trim_decomp (ws s : Str) :
    ∃ l t r, s = l ++ t ++ r ∧ (∀ c ∈ l, inSet ws c = true) ∧
      (∀ c ∈ r, inSet ws c = true) ∧ Trimmed ws t := by
  let m := s.dropWhile (inSet ws)
  refine ⟨s.takeWhile (inSet ws), (m.reverse.dropWhile (inSet ws)).reverse,
    (m.reverse.takeWhile (inSet ws)).reverse, ?_, ?_, ?_, ?_, ?_⟩
  · have h1 : (m.reverse.dropWhile (inSet ws)).reverse ++
        (m.reverse.takeWhile (inSet ws)).reverse = m := by
      rw [← List.reverse_append, List.takeWhile_append_dropWhile, List.reverse_reverse]
    rw [List.append_assoc, h1, List.takeWhile_append_dropWhile]
  · intro c hc
    exact List.mem_takeWhile_imp hc
  · intro c hc
    exact List.mem_takeWhile_imp (List.mem_reverse.mp hc)
  · intro a ha
    have hm : m = (m.reverse.dropWhile (inSet ws)).reverse ++
        (m.reverse.takeWhile (inSet ws)).reverse := by
      rw [← List.reverse_append, List.takeWhile_append_dropWhile, List.reverse_reverse]
    have h2 : m.head? = some a := by
      rw [hm, List.head?_append, ha]; rfl
    have h3 := List.head?_dropWhile_not (inSet ws) s
    have h4 : (s.dropWhile (inSet ws)).head? = some a := h2
    rw [h4] at h3
    simpa using h3
  · intro b hb
    rw [List.getLast?_reverse] at hb
    have h3 := List.head?_dropWhile_not (inSet ws) m.reverse
    rw [hb] at h3
    simpa using h3

theorem trim_of_decomp (ws l t r : Str) (hl : ∀ c ∈ l, inSet ws c = true)
    (hr : ∀ c ∈ r, inSet ws c = true) (ht : Trimmed ws t) :
    __s_trim_ws (l ++ t ++ r) ws = some t := by
  rcases List.eq_nil_or_concat t with h | ⟨t1, b, h⟩
  · subst h
    have : find_first_not_of (l ++ [] ++ r) ws 0 = none := by
      simp only [find_first_not_of, List.drop_zero, Option.map_eq_none']
      rw [firstIdx_eq_none_iff]
      intro c hc
      simp only [List.append_nil, List.mem_append] at hc
      rcases hc with hc | hc
      · simp [hl c hc]
      · simp [hr c hc]
    simp only [List.append_nil] at this ⊢
    simp [__s_trim_ws, this]
  · rw [List.concat_eq_append] at h
    have hb : inSet ws b = false := ht.2 b (by simp [h])
    obtain ⟨a, t2, h2⟩ : ∃ a t2, t = a :: t2 := by
      cases t with
      | nil => simp at h
      | cons a t2 => exact ⟨a, t2, rfl⟩
    have ha : inSet ws a = false := ht.1 a (by simp [h2])
    have hfirst : find_first_not_of (l ++ t ++ r) ws 0 = some l.length := by
      simp only [find_first_not_of, List.drop_zero]
      rw [h2, List.append_assoc, List.cons_append,
        firstIdx_hit _ l a _ (by intro x hx; simp [hl x hx]) (by simp [ha])]
      simp
    have hlast : find_last_not_of (l ++ t ++ r) ws = some (l.length + t1.length) := by
      have hrev : (l ++ t ++ r).reverse = r.reverse ++ b :: (t1.reverse ++ l.reverse) := by
        simp [h]
      have hlen : (l ++ t ++ r).length = l.length + (t1.length + 1) + r.length := by
        simp [h]; omega
      simp only [find_last_not_of]
      rw [hrev, hlen, firstIdx_hit _ r.reverse b _
          (by intro x hx; simp [hr x (List.mem_reverse.mp hx)]) (by simp [hb])]
      simp only [Option.map_some', List.length_reverse, Option.some.injEq]
      omega
    simp only [__s_trim_ws, hfirst, hlast, substr]
    have hlen : t.length = t1.length + 1 := by simp [h]
    simp only [List.length_append, List.append_assoc, List.drop_left]
    rw [if_pos (by omega)]
    have : min (l.length + t1.length - l.length + 1) (l.length + (t.length + r.length) - l.length)
        = t.length := by omega
    rw [this, List.take_left]

/-! ### Runs of non-whitespace characters -/

theorem split_at_first (p : Char → Bool) (s : Str) :
    (∀ c ∈ s, p c = false) ∨
      ∃ w c rest, s = w ++ c :: rest ∧ (∀ x ∈ w, p x = false) ∧ p c = true := by
  induction s with
  | nil => left; simp
  | cons a t ih =>
    by_cases ha : p a = true
    · right; exact ⟨[], a, t, rfl, by simp, ha⟩
    · have ha : p a = false := by simpa using ha
      rcases ih with h | ⟨w, c, rest, h1, h2, h3⟩
      · left
        intro c hc
        rcases List.mem_cons.mp hc with rfl | hc
        · exact ha
        · exact h c hc
      · right
        refine ⟨a :: w, c, rest, by simp [h1], ?_, h3⟩
        intro x hx
        rcases List.mem_cons.mp hx with rfl | hx
        · exact ha
        · exact h2 x hx

theorem nonWsRuns_nil (ws : Str) : nonWsRuns ws [] = [] := by
  simp [nonWsRuns]

theorem nonWsRuns_single (ws w : Str) (hw : ∀ x ∈ w, inSet ws x = false) (hne : w ≠ []) :
    nonWsRuns ws w = [w] := by
  have h := List.splitOnP_eq_single (inSet ws) w (by intro x hx; simp [hw x hx])
  simp [nonWsRuns, h, hne]

theorem nonWsRuns_first (ws w : Str) (c : Char) (rest : Str)
    (hw : ∀ x ∈ w, inSet ws x = false) (hc : inSet ws c = true) :
    nonWsRuns ws (w ++ c :: rest) = (if w = [] then [] else [w]) ++ nonWsRuns ws rest := by
  have h := List.splitOnP_first (inSet ws) w (by intro x hx; simp [hw x hx]) c hc rest
  by_cases hne : w = []
  · subst hne
    simp [nonWsRuns, hc]
  · simp [nonWsRuns, h, hne, List.filter_cons]

theorem nonWsRuns_ws_append (ws g s : Str) (hg : ∀ x ∈ g, inSet ws x = true) :
    nonWsRuns ws (g ++ s) = nonWsRuns ws s := by
  induction g with
  | nil => rfl
  | cons a t ih =>
    have h := nonWsRuns_first ws [] a (t ++ s) (by simp) (hg a (by simp))
    simp only [List.nil_append, if_true] at h
    rw [List.cons_append, h, ih (fun x hx => hg x (by simp [hx]))]

theorem nonWsRuns_all_ws (ws g : Str) (hg : ∀ x ∈ g, inSet ws x = true) :
    nonWsRuns ws g = [] := by
  have h := nonWsRuns_ws_append ws g [] hg
  rw [List.append_nil] at h
  rw [h, nonWsRuns_nil]

theorem nonWsRuns_append_ws (ws g : Str) (hg : ∀ x ∈ g, inSet ws x = true) :
    ∀ (n : Nat) (s : Str), s.length ≤ n → nonWsRuns ws (s ++ g) = nonWsRuns ws s := by
  intro n
  induction n with
  | zero =>
    intro s hs
    have : s = [] := List.length_eq_zero.mp (by omega)
    subst this
    rw [List.nil_append, nonWsRuns_all_ws ws g hg, nonWsRuns_nil]
  | succ n ih =>
    intro s hs
    rcases split_at_first (inSet ws) s with h | ⟨w, c, rest, h1, h2, h3⟩
    · cases g with
      | nil => simp
      | cons a g1 =>
        rw [nonWsRuns_first ws s a g1 h (hg a (by simp)),
          nonWsRuns_all_ws ws g1 (fun x hx => hg x (by simp [hx]))]
        by_cases hne : s = []
        · simp [hne, nonWsRuns_nil]
        · simp [hne, nonWsRuns_single ws s h hne]
    · subst h1
      have hlen : rest.length ≤ n := by
        simp only [List.length_append, List.length_cons] at hs
        omega
      rw [List.append_assoc, List.cons_append, nonWsRuns_first ws w c _ h2 h3,
        nonWsRuns_first ws w c _ h2 h3, ih rest hlen]

theorem nonWsRuns_ne_nil (ws : Str) (d : Char) (s : Str) (hd : inSet ws d = false) :
    nonWsRuns ws (d :: s) ≠ [] := by
  rcases split_at_first (inSet ws) (d :: s) with h | ⟨w, c, rest, h1, h2, h3⟩
  · rw [nonWsRuns_single ws _ h (by simp)]
    simp
  · have hw : w ≠ [] := by
      intro hw
      subst hw
      simp only [List.nil_append, List.cons.injEq] at h1
      rw [← h1.1, hd] at h3
      exact absurd h3 (by simp)
    rw [h1, nonWsRuns_first ws w c rest h2 h3]
    simp [hw]

theorem intercalate_cons_of_ne_nil (fill w : Str) (rs : List Str) (h : rs ≠ []) :
    fill.intercalate (w :: rs) = w ++ fill ++ fill.intercalate rs := by
  cases rs with
  | nil => exact absurd rfl h
  | cons r rs1 => simp [List.intercalate, List.intersperse]

/-! ### The replacement loop of `__s_reduce_ws` -/

theorem find_first_of_append (ws done rest : Str) (pos : Nat) (hpos : pos = done.length) :
    find_first_of (done ++ rest) ws pos =
      (firstIdx (fun c => inSet ws c) rest).map (· + pos) := by
  subst hpos
  simp [find_first_of]

theorem find_first_not_of_append (ws done rest : Str) (pos : Nat) (hpos : pos = done.length) :
    find_first_not_of (done ++ rest) ws pos =
      (firstIdx (fun c => !inSet ws c) rest).map (· + pos) := by
  subst hpos
  simp [find_first_not_of]

theorem replace_mid (done g rest fill : Str) (pos len : Nat) (hpos : pos = done.length)
    (hlen : len = g.length) :
    replace (done ++ (g ++ rest)) pos len fill = some (done ++ fill ++ rest) := by
  subst hpos hlen
  have h1 : min g.length ((done ++ (g ++ rest)).length - done.length) = g.length := by
    simp only [List.length_append]; omega
  have h2 : (done ++ (g ++ rest)).drop (done.length + g.length) = rest := by
    rw [← List.append_assoc]
    have : done.length + g.length = (done ++ g).length := by simp
    rw [this, List.drop_left]
  simp only [replace]
  rw [if_pos (by simp), h1, h2, List.take_left]

theorem reduce_ws_loop_none (fill ws : Str) (fuel : Nat) (result : Str) :
    reduce_ws_loop fill ws fuel result none = some result := by
  cases fuel <;> simp [reduce_ws_loop]

theorem reduce_ws_loop_spec (fill ws : Str) :
    ∀ (fuel : Nat) (done rest : Str), rest.length ≤ fuel → Trimmed ws rest →
      reduce_ws_loop fill ws fuel (done ++ rest) (find_first_of (done ++ rest) ws done.length)
        = some (done ++ fill.intercalate (nonWsRuns ws rest)) := by
  intro fuel
  induction fuel with
  | zero =>
    intro done rest hlen _
    have : rest = [] := List.length_eq_zero.mp (by omega)
    subst this
    rw [find_first_of_append ws done [] _ rfl]
    simp [firstIdx, reduce_ws_loop, nonWsRuns_nil, List.intercalate]
  | succ n ih =>
    intro done rest hlen ht
    rcases split_at_first (inSet ws) rest with h | ⟨w, c, rest1, h1, h2, h3⟩
    · have hf : firstIdx (fun c => inSet ws c) rest = none :=
        (firstIdx_eq_none_iff _ rest).mpr h
      rw [find_first_of_append ws done rest _ rfl, hf, Option.map_none',
        reduce_ws_loop_none]
      by_cases hne : rest = []
      · subst hne
        simp [nonWsRuns_nil, List.intercalate]
      · rw [nonWsRuns_single ws rest h hne]
        simp [List.intercalate]
    · subst h1
      have hw : w ≠ [] := by
        intro hw
        subst hw
        have h4 := ht.1 c (by simp)
        rw [h4] at h3
        exact absurd h3 (by simp)
      rcases split_at_first (fun x => !inSet ws x) (c :: rest1) with
        h | ⟨g, d, rest2, h4, h5, h6⟩
      · exfalso
        obtain ⟨b, hb⟩ : ∃ b, (c :: rest1).getLast? = some b :=
          ⟨(c :: rest1).getLast (by simp), List.getLast?_eq_getLast _ _⟩
        have hlast : (w ++ c :: rest1).getLast? = some b := by
          rw [List.getLast?_append, hb]; rfl
        have hbm : b ∈ c :: rest1 := List.mem_of_mem_getLast? hb
        have h7 := h b hbm
        have h8 := ht.2 b hlast
        simp [h8] at h7
      · have hd : inSet ws d = false := by simpa using h6
        have hgws : ∀ x ∈ g, inSet ws x = true := by
          intro x hx
          simpa using h5 x hx
        have hfo : find_first_of (done ++ (w ++ c :: rest1)) ws done.length
            = some (w.length + done.length) := by
          rw [find_first_of_append ws done _ _ rfl, firstIdx_hit _ w c rest1 h2 h3]
          rfl
        have hfn : find_first_not_of (done ++ (w ++ c :: rest1)) ws (w.length + done.length)
            = some (g.length + (w.length + done.length)) := by
          have e1 : done ++ (w ++ c :: rest1) = (done ++ w) ++ (g ++ d :: rest2) := by
            rw [h4]; simp
          rw [e1, find_first_not_of_append ws (done ++ w) _ _ (by simp; omega),
            firstIdx_hit _ g d rest2 h5 h6]
          rfl
        have hrep : replace (done ++ (w ++ c :: rest1)) (w.length + done.length)
            (g.length + (w.length + done.length) - (w.length + done.length)) fill
            = some ((done ++ w) ++ fill ++ (d :: rest2)) := by
          have e1 : done ++ (w ++ c :: rest1) = (done ++ w) ++ (g ++ d :: rest2) := by
            rw [h4]; simp
          rw [e1]
          exact replace_mid (done ++ w) g (d :: rest2) fill _ _ (by simp; omega) (by omega)
        have hlen2 : (d :: rest2).length ≤ n := by
          have e2 : (w ++ c :: rest1).length = w.length + (g ++ d :: rest2).length := by
            rw [h4]; simp
          have hw1 : 0 < w.length := List.length_pos.mpr hw
          simp only [List.length_append, List.length_cons] at e2 hlen ⊢
          omega
        have ht2 : Trimmed ws (d :: rest2) := by
          refine ⟨?_, ?_⟩
          · intro a ha
            simp only [List.head?_cons, Option.some.injEq] at ha
            rw [← ha]; exact hd
          · intro b hb
            apply ht.2 b
            have e3 : w ++ c :: rest1 = (w ++ g) ++ (d :: rest2) := by
              rw [h4]; simp
            rw [e3, List.getLast?_append, hb]
            rfl
        have hpos : w.length + done.length + fill.length = ((done ++ w) ++ fill).length := by
          simp only [List.length_append]; omega
        have hruns : nonWsRuns ws (w ++ c :: rest1) = w :: nonWsRuns ws (d :: rest2) := by
          rw [nonWsRuns_first ws w c rest1 h2 h3, if_neg hw]
          have e4 : nonWsRuns ws (c :: rest1) = nonWsRuns ws (d :: rest2) := by
            rw [h4, nonWsRuns_ws_append ws g _ hgws]
          have e5 := nonWsRuns_first ws [] c rest1 (by simp) h3
          simp only [List.nil_append, if_true] at e5
          rw [← e5, e4]
          rfl
        rw [hfo, reduce_ws_loop]
        simp only [hfn, hrep]
        rw [hpos, ih _ _ hlen2 ht2, hruns,
          intercalate_cons_of_ne_nil fill w _ (nonWsRuns_ne_nil ws d rest2 hd)]
        simp

/-- The code of `__s_reduce_ws` computes the reference definition. -/
theorem reduce_ws_eq_ref (s fill ws : Str) :
    __s_reduce_ws s fill ws = some (collapse_whitespace_ref s fill ws) := by
  obtain ⟨l, t, r, hs, hl, hr, ht⟩ := trim_decomp ws s
  have htrim := trim_of_decomp ws l t r hl hr ht
  rw [← hs] at htrim
  have hloop := reduce_ws_loop_spec fill ws t.length [] t (Nat.le_refl _) ht
  simp only [List.nil_append, List.length_nil] at hloop
  have hruns : nonWsRuns ws s = nonWsRuns ws t := by
    rw [hs, nonWsRuns_append_ws ws r hr _ _ (Nat.le_refl _), nonWsRuns_ws_append ws l t hl]
  simp only [__s_reduce_ws, htrim, hloop, collapse_whitespace_ref, hruns]

/-! ### Idempotence of the whitespace collapse -/

theorem nonWsRuns_mem (ws : Str) :
    ∀ (n : Nat) (s : Str), s.length ≤ n →
      ∀ w ∈ nonWsRuns ws s, w ≠ [] ∧ ∀ x ∈ w, inSet ws x = false := by
  intro n
  induction n with
  | zero =>
    intro s hs w hw
    have : s = [] := List.length_eq_zero.mp (by omega)
    subst this
    simp [nonWsRuns_nil] at hw
  | succ n ih =>
    intro s hs w hw
    rcases split_at_first (inSet ws) s with h | ⟨v, c, rest, h1, h2, h3⟩
    · by_cases hne : s = []
      · subst hne
        simp [nonWsRuns_nil] at hw
      · rw [nonWsRuns_single ws s h hne, List.mem_singleton] at hw
        subst hw
        exact ⟨hne, h⟩
    · subst h1
      have hlen : rest.length ≤ n := by
        simp only [List.length_append, List.length_cons] at hs
        omega
      rw [nonWsRuns_first ws v c rest h2 h3, List.mem_append] at hw
      rcases hw with hw | hw
      · by_cases hv : v = []
        · simp [hv] at hw
        · simp only [if_neg hv, List.mem_singleton] at hw
          subst hw
          exact ⟨hv, h2⟩
      · exact ih rest hlen w hw

theorem nonWsRuns_intercalate (ws fill : Str) (hne : fill ≠ [])
    (hfill : ∀ x ∈ fill, inSet ws x = true) (runs : List Str)
    (hruns : ∀ w ∈ runs, w ≠ [] ∧ ∀ x ∈ w, inSet ws x = false) :
    nonWsRuns ws (fill.intercalate runs) = runs := by
  induction runs with
  | nil => simp [List.intercalate, nonWsRuns_nil]
  | cons w rs ih =>
    have hw := hruns w (by simp)
    have hrs : ∀ v ∈ rs, v ≠ [] ∧ ∀ x ∈ v, inSet ws x = false :=
      fun v hv => hruns v (by simp [hv])
    by_cases hnil : rs = []
    · subst hnil
      have : fill.intercalate [w] = w := by simp [List.intercalate]
      rw [this, nonWsRuns_single ws w hw.2 hw.1]
    · rw [intercalate_cons_of_ne_nil fill w rs hnil]
      obtain ⟨f, fs, hf⟩ : ∃ f fs, fill = f :: fs := by
        cases fill with
        | nil => exact absurd rfl hne
        | cons f fs => exact ⟨f, fs, rfl⟩
      have e1 : w ++ fill ++ fill.intercalate rs = w ++ f :: (fs ++ fill.intercalate rs) := by
        rw [hf]; simp
      rw [e1, nonWsRuns_first ws w f _ hw.2 (hfill f (by simp [hf])), if_neg hw.1,
        nonWsRuns_ws_append ws fs _ (fun x hx => hfill x (by simp [hf, hx])), ih hrs]
      rfl

theorem ref_idempotent (ws fill s : Str) (hne : fill ≠ [])
    (hfill : ∀ x ∈ fill, inSet ws x = true) :
    collapse_whitespace_ref (collapse_whitespace_ref s fill ws) fill ws
      = collapse_whitespace_ref s fill ws := by
  simp only [collapse_whitespace_ref]
  rw [nonWsRuns_intercalate ws fill hne hfill _ (nonWsRuns_mem ws _ s (Nat.le_refl _))]

/-! ### The punctuation-stripping loop -/

theorem foldl_push_eq_filter (q : Char → Bool) (l acc : Str) :
    l.foldl (fun out c => if q c then out ++ [c] else out) acc = acc ++ l.filter q := by
  induction l generalizing acc with
  | nil => simp
  | cons a t ih =>
    by_cases h : q a = true
    · simp [List.foldl_cons, h, ih, List.filter_cons]
    · simp [List.foldl_cons, h, ih, List.filter_cons]

theorem strip_loop_eq_filter (keep_punct : Bool) (tmp : Str) :
    strip_loop keep_punct tmp = tmp.filter (fun c => keep_punct || !ispunct c) := by
  have h := foldl_push_eq_filter (fun c => keep_punct || !ispunct c) tmp []
  simpa [strip_loop] using h

/-! ### Claims on `trim`, `collapse_whitespace` and `collapse` -/

/-- C10. For every string `s` and whitespace set `ws`, `__s_trim_ws` returns a string
`t` with `s = l ++ t ++ r`, where every character of `l` and of `r` is in `ws`; `t` is
empty exactly when every character of `s` is in `ws`, and otherwise begins and ends
with a character not in `ws`. With the default set, trimming `"  hello  "` gives
`"hello"`. -/
theorem trim_ws_spec (s ws : Str) :
    (∃ l t r, __s_trim_ws s ws = some t ∧ s = l ++ t ++ r ∧
      (∀ c ∈ l, c ∈ ws) ∧ (∀ c ∈ r, c ∈ ws) ∧
      (t = [] ↔ ∀ c ∈ s, c ∈ ws) ∧
      (t = [] ∨ ∃ a b, t.head? = some a ∧ t.getLast? = some b ∧ a ∉ ws ∧ b ∉ ws)) ∧
    __s_trim_ws "  hello  ".toList = some "hello".toList := by
  refine ⟨?_, by decide⟩
  obtain ⟨l, t, r, hs, hl, hr, ht⟩ := trim_decomp ws s
  have htrim := trim_of_decomp ws l t r hl hr ht
  rw [← hs] at htrim
  have hl1 : ∀ c ∈ l, c ∈ ws := fun c hc => (inSet_iff ws c).mp (hl c hc)
  have hr1 : ∀ c ∈ r, c ∈ ws := fun c hc => (inSet_iff ws c).mp (hr c hc)
  refine ⟨l, t, r, htrim, hs, hl1, hr1, ?_, ?_⟩
  · constructor
    · intro h c hc
      subst h
      rw [hs] at hc
      simp only [List.append_nil, List.mem_append] at hc
      rcases hc with hc | hc
      · exact hl1 c hc
      · exact hr1 c hc
    · intro h
      cases t with
      | nil => rfl
      | cons a t1 =>
        exfalso
        have ha : a ∈ ws := h a (by rw [hs]; simp)
        have hna := ht.1 a (by simp)
        rw [(inSet_iff ws a).mpr ha] at hna
        exact absurd hna (by simp)
  · cases t with
    | nil => left; rfl
    | cons a t1 =>
      right
      refine ⟨a, (a :: t1).getLast (by simp), by simp, List.getLast?_eq_getLast _ _, ?_, ?_⟩
      · exact (inSet_false_iff ws a).mp (ht.1 a (by simp))
      · exact (inSet_false_iff ws _).mp (ht.2 _ (List.getLast?_eq_getLast _ _))

/-- C7. For every string, fill and whitespace set, `__s_reduce_ws` returns the
reference definition of `collapse_whitespace`: the maximal runs of non-whitespace
characters of `s`, in order and unchanged, joined by one copy of `fill` (so the empty
string when `s` has no such run). `collapse_whitespace("a    b\tc", " ")` is
`"a b c"`. -/
theorem reduce_ws_refines_ref (s fill ws : Str) :
    __s_reduce_ws s fill ws = some (collapse_whitespace_ref s fill ws) ∧
    __s_reduce_ws "a    b\tc".toList " ".toList = some "a b c".toList :=
  ⟨reduce_ws_eq_ref s fill ws, by decide⟩

/-- C6. With the default fill (one space) and the default whitespace set (space, tab,
CR, LF), `__s_reduce_ws` is idempotent: it returns a string `t` on every `s`, and
returns `t` again on `t`. -/
theorem reduce_ws_idempotent (s : Str) :
    ∃ t, __s_reduce_ws s = some t ∧ __s_reduce_ws t = some t := by
  refine ⟨collapse_whitespace_ref s " ".toList " \t\r\n".toList, reduce_ws_eq_ref _ _ _, ?_⟩
  rw [reduce_ws_eq_ref, ref_idempotent _ _ _ (by decide) (by decide)]

/-- C8. `__s_collapse(s, keep_punct, keep_space)` is the stated composite: with `X`
the result of `__s_reduce_ws(s)` when `keep_space` holds and of `__s_remove_ws(s)`
otherwise, it returns `X` itself when `keep_punct` holds and `X` without its
punctuation characters otherwise; the result is a subsequence of `X`, and has no
punctuation character when `keep_punct` is false.
`collapse("Hi, there!", false, false)` is `"Hithere"`. -/
theorem collapse_is_composite (s : Str) (keep_punct keep_space : Bool) :
    (∃ X out, (if keep_space then __s_reduce_ws s else some (__s_remove_ws s)) = some X ∧
      __s_collapse s keep_punct keep_space = some out ∧
      out = (if keep_punct then X else X.filter (fun c => !ispunct c)) ∧
      List.Sublist out X ∧
      (keep_punct = true ∨ ∀ c ∈ out, ispunct c = false)) ∧
    __s_collapse "Hi, there!".toList false false = some "Hithere".toList := by
  refine ⟨?_, by decide⟩
  obtain ⟨X, hX⟩ : ∃ X, (if keep_space then __s_reduce_ws s else some (__s_remove_ws s))
      = some X := by
    cases keep_space
    · exact ⟨_, rfl⟩
    · exact ⟨_, reduce_ws_eq_ref _ _ _⟩
  refine ⟨X, strip_loop keep_punct X, hX, ?_, ?_, ?_, ?_⟩
  · simp only [__s_collapse, hX]
  · rw [strip_loop_eq_filter]
    cases keep_punct <;> simp
  · rw [strip_loop_eq_filter]
    exact List.filter_sublist _
  · cases keep_punct
    · right
      intro c hc
      rw [strip_loop_eq_filter] at hc
      simpa using (List.mem_filter.mp hc).2
    · left; rfl

/-! ### `__s_multiline_collapse` -/

theorem mem_intercalate (fill : Str) (runs : List Str) (c : Char)
    (h : c ∈ fill.intercalate runs) : c ∈ fill ∨ ∃ w ∈ runs, c ∈ w := by
  induction runs with
  | nil => simp [List.intercalate] at h
  | cons w rs ih =>
    by_cases hnil : rs = []
    · subst hnil
      have e : fill.intercalate [w] = w := by simp [List.intercalate]
      rw [e] at h
      exact Or.inr ⟨w, by simp, h⟩
    · rw [intercalate_cons_of_ne_nil fill w rs hnil] at h
      simp only [List.mem_append] at h
      rcases h with (h | h) | h
      · exact Or.inr ⟨w, by simp, h⟩
      · exact Or.inl h
      · rcases ih h with h1 | ⟨v, hv, hc⟩
        · exact Or.inl h1
        · exact Or.inr ⟨v, by simp [hv], hc⟩

theorem mem_ref (s fill ws : Str) (c : Char) (h : c ∈ collapse_whitespace_ref s fill ws) :
    c ∈ fill ∨ inSet ws c = false := by
  rcases mem_intercalate fill _ c h with h1 | ⟨w, hw, hc⟩
  · exact Or.inl h1
  · exact Or.inr ((nonWsRuns_mem ws _ s (Nat.le_refl _) w hw).2 c hc)

theorem line_collapse_ref_no_break (keep_punct : Bool) (line : Str) (c : Char)
    (h : c ∈ line_collapse_ref keep_punct line) : c ≠ '\n' ∧ c ≠ '\r' := by
  have h1 := (List.mem_filter.mp h).1
  rcases mem_ref _ _ _ c h1 with h2 | h2
  · have : c = ' ' := by simpa using h2
    subst this
    exact ⟨by decide, by decide⟩
  · constructor
    · intro hc
      subst hc
      exact absurd h2 (by decide)
    · intro hc
      subst hc
      exact absurd h2 (by decide)

theorem line_collapse_ref_nil (keep_punct : Bool) : line_collapse_ref keep_punct [] = [] := by
  simp [line_collapse_ref, collapse_whitespace_ref, nonWsRuns_nil, List.intercalate]

theorem multiline_loop_eof (keep_punct : Bool) (n : Nat) (buf : Str) (fail : Bool)
    (line out : Str) :
    multiline_loop keep_punct (n + 1) { buf := buf, eofbit := true, failbit := fail } line out
      = some out := by
  simp [multiline_loop, getline]

theorem multiline_step (keep_punct : Bool) (n : Nat) (iss iss1 : IStream) (line line1 out : Str)
    (hg : getline iss line = (iss1, line1)) (hf : iss1.failbit = false) :
    multiline_loop keep_punct (n + 1) iss line out
      = multiline_loop keep_punct n iss1 line1 (out ++ line_collapse_ref keep_punct line1) := by
  have hne : (strip_loop keep_punct
      (collapse_whitespace_ref line1 " ".toList " \t\r\n".toList) != ['\n']) = true := by
    rw [strip_loop_eq_filter]
    simp only [bne_iff_ne, ne_eq]
    intro hc
    have hm : '\n' ∈ line_collapse_ref keep_punct line1 := by
      simp only [line_collapse_ref]
      rw [hc]
      simp
    exact (line_collapse_ref_no_break keep_punct line1 _ hm).1 rfl
  rw [multiline_loop]
  simp only [hg, hf, reduce_ws_eq_ref, hne]
  simp [line_collapse_ref, strip_loop_eq_filter]

theorem multiline_loop_spec (keep_punct : Bool) :
    ∀ (fuel : Nat) (buf line out : Str), buf.length + 1 ≤ fuel →
      multiline_loop keep_punct fuel { buf := buf, eofbit := false, failbit := false } line out
        = some (out ++ multiline_collapse_ref buf keep_punct) := by
  intro fuel
  induction fuel with
  | zero => intro buf line out h; omega
  | succ n ih =>
    intro buf line out hlen
    rcases split_at_first (fun c => c == '\n') buf with h | ⟨w, c, rest, h1, h2, h3⟩
    · have hf : firstIdx (fun c => c == '\n') buf = none := (firstIdx_eq_none_iff _ buf).mpr h
      have hsingle : multiline_collapse_ref buf keep_punct = line_collapse_ref keep_punct buf := by
        have := List.splitOnP_eq_single (fun c => c == '\n') buf
          (by intro x hx; simp [h x hx])
        simp [multiline_collapse_ref, this]
      by_cases hne : buf = []
      · subst hne
        simp [multiline_loop, getline, firstIdx, hsingle, line_collapse_ref_nil]
      · have hg : getline { buf := buf, eofbit := false, failbit := false } line
            = ({ buf := [], eofbit := true, failbit := false }, buf) := by
          simp [getline, hf, hne]
        rw [multiline_step keep_punct n _ _ line buf out hg rfl, hsingle]
        have hpos : 0 < buf.length := List.length_pos.mpr hne
        obtain ⟨m, hm⟩ : ∃ m, n = m + 1 := ⟨n - 1, by omega⟩
        rw [hm, multiline_loop_eof]
    · subst h1
      have hc : c = '\n' := by simpa using h3
      subst hc
      have hf : firstIdx (fun c => c == '\n') (w ++ '\n' :: rest) = some w.length :=
        firstIdx_hit _ w '\n' rest h2 h3
      have hg : getline { buf := w ++ '\n' :: rest, eofbit := false, failbit := false } line
          = ({ buf := rest, eofbit := false, failbit := false }, w) := by
        simp [getline, hf]
      have hsplit : multiline_collapse_ref (w ++ '\n' :: rest) keep_punct
          = line_collapse_ref keep_punct w ++ multiline_collapse_ref rest keep_punct := by
        have := List.splitOnP_first (fun c => c == '\n') w
          (by intro x hx; simp [h2 x hx]) '\n' (by simp) rest
        simp [multiline_collapse_ref, this]
      have hlen2 : rest.length + 1 ≤ n := by
        simp only [List.length_append, List.length_cons] at hlen
        omega
      rw [multiline_step keep_punct n _ _ line w out hg rfl, ih rest w _ hlen2, hsplit,
        List.append_assoc]

/-- The code of `__s_multiline_collapse` computes the reference definition. -/
theorem multiline_collapse_eq_ref (s : Str) (keep_punct : Bool) :
    __s_multiline_collapse s keep_punct = some (multiline_collapse_ref s keep_punct) := by
  have h := multiline_loop_spec keep_punct (s.length + 1) s [] [] (Nat.le_refl _)
  simpa [__s_multiline_collapse] using h

theorem splitOnP_append_sep (p : Char → Bool) (a : Str) (c : Char) (b : Str)
    (hc : p c = true) :
    (a ++ c :: b).splitOnP p = a.splitOnP p ++ b.splitOnP p := by
  induction a with
  | nil => simp [hc]
  | cons x t ih =>
    rw [List.cons_append, List.splitOnP_cons, List.splitOnP_cons, ih]
    by_cases hx : p x = true
    · simp [hx]
    · simp only [hx, if_false]
      have hne := List.splitOnP_ne_nil p t
      cases hsp : t.splitOnP p with
      | nil => exact absurd hsp hne
      | cons y ys => simp [List.modifyHead]

theorem multiline_collapse_ref_append (a b : Str) (keep_punct : Bool) :
    multiline_collapse_ref (a ++ '\n' :: b) keep_punct
      = multiline_collapse_ref a keep_punct ++ multiline_collapse_ref b keep_punct := by
  have h := splitOnP_append_sep (fun c => c == '\n') a '\n' b rfl
  simp only [multiline_collapse_ref]
  rw [h, List.map_append, List.flatten_append]

theorem multiline_collapse_ref_no_break (s : Str) (keep_punct : Bool) (c : Char)
    (h : c ∈ multiline_collapse_ref s keep_punct) : c ≠ '\n' ∧ c ≠ '\r' := by
  simp only [multiline_collapse_ref, List.mem_flatten, List.mem_map] at h
  obtain ⟨l, ⟨w, _, hw⟩, hc⟩ := h
  rw [← hw] at hc
  exact line_collapse_ref_no_break keep_punct w c hc

/-- C9. `__s_multiline_collapse` treats the lines independently and concatenates their
contributions with no separator: for all strings `a`, `e`, `b` and every flag it
returns on `a`, `e` and `b`, on `a + "\n" + b` it returns the concatenation of the
results on `a` and `b`, on `a + "\n" + e + "\n" + b` the concatenation of the three
results (so nothing is added for an `e` with an empty result), and no result contains
a line feed or a carriage return. -/
theorem multiline_collapse_additive (a e b : Str) (keep_punct : Bool) :
    ∃ ra re rb, __s_multiline_collapse a keep_punct = some ra ∧
      __s_multiline_collapse e keep_punct = some re ∧
      __s_multiline_collapse b keep_punct = some rb ∧
      __s_multiline_collapse (a ++ '\n' :: b) keep_punct = some (ra ++ rb) ∧
      __s_multiline_collapse (a ++ '\n' :: (e ++ '\n' :: b)) keep_punct
        = some (ra ++ re ++ rb) ∧
      (∀ c ∈ ra, c ≠ '\n' ∧ c ≠ '\r') := by
  refine ⟨_, _, _, multiline_collapse_eq_ref a keep_punct, multiline_collapse_eq_ref e keep_punct,
    multiline_collapse_eq_ref b keep_punct, ?_, ?_, ?_⟩
  · rw [multiline_collapse_eq_ref, multiline_collapse_ref_append]
  · rw [multiline_collapse_eq_ref, multiline_collapse_ref_append, multiline_collapse_ref_append,
      List.append_assoc]
  · intro c hc
    exact multiline_collapse_ref_no_break a keep_punct c hc

/-- C5, as the code has it. A line that consists of a backslash followed by `n` is not
dropped: it contributes these two characters when `keep_punct` holds and the single
character `n` otherwise, whatever comes before and after it. -/
theorem multiline_collapse_marker_kept (a b : Str) (keep_punct : Bool) :
    ∃ ra rb, __s_multiline_collapse a keep_punct = some ra ∧
      __s_multiline_collapse b keep_punct = some rb ∧
      __s_multiline_collapse ['\\', 'n'] keep_punct
        = some (if keep_punct then ['\\', 'n'] else ['n']) ∧
      __s_multiline_collapse (a ++ '\n' :: (['\\', 'n'] ++ '\n' :: b)) keep_punct
        = some (ra ++ (if keep_punct then ['\\', 'n'] else ['n']) ++ rb) := by
  have hm : multiline_collapse_ref ['\\', 'n'] keep_punct
      = (if keep_punct then ['\\', 'n'] else ['n']) := by
    cases keep_punct <;> decide
  refine ⟨_, _, multiline_collapse_eq_ref a keep_punct, multiline_collapse_eq_ref b keep_punct,
    ?_, ?_⟩
  · rw [multiline_collapse_eq_ref, hm]
  · rw [multiline_collapse_eq_ref, multiline_collapse_ref_append, multiline_collapse_ref_append,
      hm, List.append_assoc]

/-- C5, counterexample. Removing a line that is exactly backslash, `n` changes the
result of `__s_multiline_collapse`, with either value of the flag. -/
theorem multiline_collapse_marker_counterexample :
    __s_multiline_collapse "x\n\\n\ny".toList true = some "x\\ny".toList ∧
    __s_multiline_collapse "x\n\\n\ny".toList false = some "xny".toList ∧
    __s_multiline_collapse "x\ny".toList true = some "xy".toList ∧
    __s_multiline_collapse "x\ny".toList false = some "xy".toList ∧
    ¬ (∀ (s1 s2 : Str) (kp : Bool),
        __s_multiline_collapse (s1 ++ '\n' :: (['\\', 'n'] ++ '\n' :: s2)) kp
          = __s_multiline_collapse (s1 ++ '\n' :: s2) kp) := by
  refine ⟨by decide, by decide, by decide, by decide, ?_⟩
  intro h
  have h1 := h ['x'] ['y'] true
  revert h1
  decide

/-! ### `__capture_stdout` -/

/-- C1, evaluation at the failing sequence. On a fresh instance, `begin(); begin();
end()` leaves `std::cout` attached to the instance's own buffer and not to the
destination it had at construction, also after the instance is destroyed; with a
single `begin()` the destination is restored. -/
theorem capture_double_begin_not_restored (dest : Nat) (delivered : List (Nat × Str)) :
    ((Capture.construct dest delivered).run
        [Capture.Op.begin_capture, Capture.Op.begin_capture, Capture.Op.end_capture]).cout_rdbuf
      = StreamBuf.own ∧
    ((Capture.construct dest delivered).run
        [Capture.Op.begin_capture, Capture.Op.begin_capture, Capture.Op.end_capture]).cout_rdbuf
      ≠ (Capture.construct dest delivered).cout_rdbuf ∧
    ((Capture.construct dest delivered).run
        [Capture.Op.begin_capture, Capture.Op.begin_capture]).destroy.cout_rdbuf
      = StreamBuf.own ∧
    ((Capture.construct dest delivered).run
        [Capture.Op.begin_capture, Capture.Op.end_capture]).cout_rdbuf
      = StreamBuf.external dest := by
  simp [Capture.run, Capture.step, Capture.construct, Capture.begin_capture,
    Capture.end_capture, Capture.destroy]

theorem capture_writes_own (st : Capture) (h : st.cout_rdbuf = StreamBuf.own)
    (pieces : List Str) :
    pieces.foldl Capture.cout_write st = { st with oss := st.oss ++ pieces.flatten } := by
  induction pieces generalizing st with
  | nil => simp
  | cons t ts ih =>
    have h1 : st.cout_write t = { st with oss := st.oss ++ t } := by
      simp [Capture.cout_write, h]
    rw [List.foldl_cons, h1, ih { st with oss := st.oss ++ t } h]
    simp

/-- C3. Capture completeness: from every state, whatever text `P` was written before,
`begin()`, then writing the pieces of a text in order, then `end()` makes `end()` return
exactly the concatenation of the pieces. -/
theorem capture_complete (st : Capture) (P : Str) (pieces : List Str) :
    (Capture.end_capture
      (pieces.foldl Capture.cout_write (Capture.begin_capture (st.cout_write P)))).2
      = pieces.flatten := by
  rw [capture_writes_own _ rfl]
  simp [Capture.end_capture, Capture.begin_capture]

/-! ### `__simulate_stdin` -/

theorem simulation_step_inv (src : Nat) (st : Simulation) (op : Simulation.Op)
    (h : st.p_cin_streambuf = StreamBuf.external src ∧
      (st.p_sim_streambuf = none → st.cin_rdbuf = StreamBuf.external src)) :
    (st.step op).p_cin_streambuf = StreamBuf.external src ∧
      ((st.step op).p_sim_streambuf = none → (st.step op).cin_rdbuf = StreamBuf.external src) := by
  obtain ⟨h1, h2⟩ := h
  cases op with
  | begin_strm id =>
    simp [Simulation.step, Simulation.begin_simulation, h1]
  | begin_str input_str =>
    simp [Simulation.step, Simulation.begin_simulation_str, Simulation.begin_simulation, h1]
  | end_simulation =>
    cases hp : st.p_sim_streambuf with
    | none => simpa [Simulation.step, Simulation.end_simulation, hp, h1] using h2 hp
    | some b => simp [Simulation.step, Simulation.end_simulation, hp, h1]
  | read_line =>
    cases hb : st.cin_rdbuf with
    | own =>
      simp only [Simulation.step, Simulation.cin_getline, hb]
      exact ⟨h1, fun hp => by rw [h2 hp] at hb; exact absurd hb (by simp)⟩
    | external id =>
      simp only [Simulation.step, Simulation.cin_getline, hb]
      exact ⟨h1, fun hp => by rw [← hb]; exact h2 hp⟩

theorem simulation_run_inv (src : Nat) (ops : List Simulation.Op) :
    ∀ st : Simulation, (st.p_cin_streambuf = StreamBuf.external src ∧
      (st.p_sim_streambuf = none → st.cin_rdbuf = StreamBuf.external src)) →
    (st.run ops).p_cin_streambuf = StreamBuf.external src ∧
      ((st.run ops).p_sim_streambuf = none → (st.run ops).cin_rdbuf = StreamBuf.external src) := by
  induction ops with
  | nil => intro st h; exact h
  | cons op rest ih =>
    intro st h
    exact ih (st.step op) (simulation_step_inv src st op h)

theorem simulation_end_restores (src : Nat) (st : Simulation)
    (h : st.p_cin_streambuf = StreamBuf.external src ∧
      (st.p_sim_streambuf = none → st.cin_rdbuf = StreamBuf.external src)) :
    st.end_simulation.cin_rdbuf = StreamBuf.external src := by
  cases hp : st.p_sim_streambuf with
  | none => simpa [Simulation.end_simulation, hp] using h.2 hp
  | some b => simp [Simulation.end_simulation, hp, h.1]

/-- C2. For every sequence of `begin(stream)`, `begin(string)`, `end()` and line reads on
one `__simulate_stdin` instance, once a final `end()` has run (or the instance has been
destroyed) `std::cin` reads again from the buffer it had when the instance was
constructed; and after any such sequence the saved original `p_cin_streambuf` is still
that buffer. -/
theorem simulation_restores (src : Nat) (eofbit failbit : Bool) (external_input : Nat → Str)
    (ops : List Simulation.Op) :
    ((Simulation.construct src eofbit failbit external_input).run
        (ops ++ [Simulation.Op.end_simulation])).cin_rdbuf = StreamBuf.external src ∧
    ((Simulation.construct src eofbit failbit external_input).run ops).destroy.cin_rdbuf
      = StreamBuf.external src ∧
    ((Simulation.construct src eofbit failbit external_input).run ops).p_cin_streambuf
      = (Simulation.construct src eofbit failbit external_input).p_cin_streambuf ∧
    (Simulation.construct src eofbit failbit external_input).cin_rdbuf
      = StreamBuf.external src := by
  have h0 := simulation_run_inv src ops (Simulation.construct src eofbit failbit external_input)
    ⟨rfl, fun _ => rfl⟩
  refine ⟨?_, simulation_end_restores src _ h0, h0.1, rfl⟩
  have : (Simulation.construct src eofbit failbit external_input).run
      (ops ++ [Simulation.Op.end_simulation])
      = ((Simulation.construct src eofbit failbit external_input).run ops).end_simulation := by
    simp [Simulation.run, Simulation.step]
  rw [this]
  exact simulation_end_restores src _ h0

/-! ### Reading the simulated input -/

theorem lines_ref_nil : lines_ref [] = [] := by decide

theorem lines_ref_single (w : Str) (hw : ∀ x ∈ w, (x == '\n') = false) (hne : w ≠ []) :
    lines_ref w = [w] := by
  have h := List.splitOnP_eq_single (fun c => c == '\n') w (by intro x hx; simp [hw x hx])
  simp [lines_ref, h, hne]

theorem lines_ref_first (w rest : Str) (hw : ∀ x ∈ w, (x == '\n') = false) :
    lines_ref (w ++ '\n' :: rest) = w :: lines_ref rest := by
  have h := List.splitOnP_first (fun c => c == '\n') w (by intro x hx; simp [hw x hx])
    '\n' rfl rest
  have hne := List.splitOnP_ne_nil (fun c => c == '\n') rest
  simp only [lines_ref, h]
  cases hsp : rest.splitOnP (fun c => c == '\n') with
  | nil => exact absurd hsp hne
  | cons y ys =>
    have e1 : (w :: y :: ys).getLast? = (y :: ys).getLast? := by
      simp [List.getLast?_cons_cons]
    have e2 : (w :: y :: ys).dropLast = w :: (y :: ys).dropLast := by simp
    rw [e1, e2]
    by_cases hl : (y :: ys).getLast? = some []
    · simp only [hl, if_true]
    · simp only [hl, if_false]

theorem intercalate_append_nil (sep : Str) (init : List Str) (h : init ≠ []) :
    sep.intercalate (init ++ [[]]) = sep.intercalate init ++ sep := by
  induction init with
  | nil => exact absurd rfl h
  | cons a t ih =>
    by_cases ht : t = []
    · subst ht
      simp [List.intercalate, List.intersperse]
    · have hne : t ++ [[]] ≠ [] := by simp
      rw [List.cons_append, intercalate_cons_of_ne_nil sep a _ hne, ih ht,
        intercalate_cons_of_ne_nil sep a t ht]
      simp

theorem lines_ref_content (s : Str) :
    s = ['\n'].intercalate (lines_ref s) ∨ s = ['\n'].intercalate (lines_ref s) ++ ['\n'] := by
  have h : ['\n'].intercalate (s.splitOnP (fun c => c == '\n')) = s :=
    List.intercalate_splitOn s '\n'
  by_cases hl : (s.splitOnP (fun c => c == '\n')).getLast? = some []
  · have hd : s.splitOnP (fun c => c == '\n')
        = (s.splitOnP (fun c => c == '\n')).dropLast ++ [[]] := by
      have := List.dropLast_append_getLast? [] hl
      exact this.symm
    have hr : lines_ref s = (s.splitOnP (fun c => c == '\n')).dropLast := by
      simp [lines_ref, hl]
    by_cases hi : (s.splitOnP (fun c => c == '\n')).dropLast = []
    · left
      rw [hi] at hd
      rw [hr, hi, ← h, hd]
      simp [List.intercalate]
    · right
      rw [hr, ← intercalate_append_nil _ _ hi, ← hd, h]
  · left
    have hr : lines_ref s = s.splitOnP (fun c => c == '\n') := by
      simp [lines_ref, hl]
    rw [hr, h]

theorem cin_getline_failed (st : Simulation) (line : Str)
    (h : st.cin_eofbit = true ∨ st.cin_failbit = true) :
    (st.cin_getline line).2 = line ∧ (st.cin_getline line).1.cin_failbit = true := by
  have hb : (st.cin_eofbit || st.cin_failbit) = true := by
    rcases h with h | h <;> simp [h]
  constructor
  · simp [Simulation.cin_getline, getline, hb]
  · cases hr : st.cin_rdbuf <;> simp [Simulation.cin_getline, getline, hb, hr]

theorem cin_read_lines_failed (n : Nat) :
    ∀ st : Simulation, (st.cin_eofbit = true ∨ st.cin_failbit = true) →
      Simulation.cin_read_lines n st = List.replicate n ([], false) := by
  induction n with
  | zero => intro st _; rfl
  | succ n ih =>
    intro st h
    have h1 : (st.cin_getline []).2 = [] := (cin_getline_failed st [] h).1
    have h2 : (st.cin_getline []).1.cin_failbit = true := (cin_getline_failed st [] h).2
    rw [Simulation.cin_read_lines]
    simp only [h1, h2, ih _ (Or.inr h2)]
    rfl

theorem cin_getline_ready (st : Simulation) (s line : Str) (h : ReadyOn st s) :
    st.cin_getline line =
      ({ st with
          cin_eofbit := (getline { buf := s, eofbit := false, failbit := false } line).1.eofbit,
          cin_failbit := (getline { buf := s, eofbit := false, failbit := false } line).1.failbit,
          iss := (getline { buf := s, eofbit := false, failbit := false } line).1.buf },
        (getline { buf := s, eofbit := false, failbit := false } line).2) := by
  obtain ⟨h1, h2, h3, h4⟩ := h
  simp [Simulation.cin_getline, Simulation.cin_buf, h1, h2, h3, h4]

theorem cin_read_lines_spec :
    ∀ (len : Nat) (s : Str) (st : Simulation) (m : Nat), s.length ≤ len → ReadyOn st s →
      Simulation.cin_read_lines ((lines_ref s).length + m) st
        = (lines_ref s).map (fun l => (l, true)) ++ List.replicate m ([], false) := by
  intro len
  induction len with
  | zero =>
    intro s st m hlen hr
    have : s = [] := List.length_eq_zero.mp (by omega)
    subst this
    rw [lines_ref_nil]
    simp only [List.length_nil, Nat.zero_add, List.map_nil, List.nil_append]
    cases m with
    | zero => rfl
    | succ m =>
      have hg := cin_getline_ready st [] [] hr
      rw [Simulation.cin_read_lines]
      simp only [hg]
      rw [cin_read_lines_failed m _ (Or.inl (by simp [getline, firstIdx]))]
      simp [getline, firstIdx, List.replicate]
  | succ len ih =>
    intro s st m hlen hr
    rcases split_at_first (fun c => c == '\n') s with h | ⟨w, c, rest, h1, h2, h3⟩
    · by_cases hne : s = []
      · subst hne
        exact ih [] st m (by simp) hr
      · have hf : firstIdx (fun c => c == '\n') s = none := (firstIdx_eq_none_iff _ s).mpr h
        have hg := cin_getline_ready st s [] hr
        rw [lines_ref_single s h hne]
        simp only [List.length_singleton, List.map_cons, List.map_nil, List.singleton_append]
        rw [Nat.add_comm 1 m, Simulation.cin_read_lines]
        simp only [hg]
        rw [cin_read_lines_failed m _ (Or.inl (by simp [getline, hf]))]
        simp [getline, hf, hne]
    · subst h1
      have hc : c = '\n' := by simpa using h3
      subst hc
      have hf : firstIdx (fun c => c == '\n') (w ++ '\n' :: rest) = some w.length :=
        firstIdx_hit _ w '\n' rest h2 h3
      have hg := cin_getline_ready st (w ++ '\n' :: rest) [] hr
      have hlen2 : rest.length ≤ len := by
        simp only [List.length_append, List.length_cons] at hlen
        omega
      rw [lines_ref_first w rest h2]
      simp only [List.length_cons, List.map_cons, List.cons_append]
      rw [Nat.add_right_comm, Simulation.cin_read_lines]
      simp only [hg]
      rw [ih rest _ m hlen2 (by simp [ReadyOn, getline, hf, hr.1])]
      simp [getline, hf]

/-- C4. Simulation fidelity: after `begin( S )` the line reads of the code under test
succeed once for every line of `S`, returning the lines in order, and every read after
that fails (end of stream); the lines joined by line feeds are `S`, up to a final line
feed. When `S` has no line feed, the first read returns `S`, the read after it finds
`eofbit` set and fails, and `get_name()` returns `S`. -/
theorem simulation_fidelity (st : Simulation) (out : Capture) (S : Str) (m : Nat) :
    Simulation.cin_read_lines ((lines_ref S).length + m) (st.begin_simulation_str S)
      = (lines_ref S).map (fun l => (l, true)) ++ List.replicate m ([], false) ∧
    (S = ['\n'].intercalate (lines_ref S) ∨ S = ['\n'].intercalate (lines_ref S) ++ ['\n']) ∧
    ('\n' ∈ S ∨
      (((st.begin_simulation_str S).cin_getline []).2 = S ∧
       ((st.begin_simulation_str S).cin_getline []).1.cin_eofbit = true ∧
       ((((st.begin_simulation_str S).cin_getline []).1.cin_getline []).1.cin_failbit = true) ∧
       ((((st.begin_simulation_str S).cin_getline []).1.cin_getline []).2 = []) ∧
       (get_name out (st.begin_simulation_str S)).2.2 = S)) := by
  have hr : ReadyOn (st.begin_simulation_str S) S := by
    simp [ReadyOn, Simulation.begin_simulation_str, Simulation.begin_simulation]
  refine ⟨cin_read_lines_spec S.length S _ m (Nat.le_refl _) hr, lines_ref_content S, ?_⟩
  by_cases hnl : '\n' ∈ S
  · exact Or.inl hnl
  · right
    have hall : ∀ x ∈ S, (x == '\n') = false := by
      intro x hx
      simp only [beq_eq_false_iff_ne, ne_eq]
      intro hc
      subst hc
      exact hnl hx
    have hf : firstIdx (fun c => c == '\n') S = none := (firstIdx_eq_none_iff _ S).mpr hall
    have hg := cin_getline_ready _ S [] hr
    have h1 : ((st.begin_simulation_str S).cin_getline []).2 = S := by
      rw [hg]; simp [getline, hf]
    have h2 : ((st.begin_simulation_str S).cin_getline []).1.cin_eofbit = true := by
      rw [hg]; simp [getline, hf]
    have h3 := cin_getline_failed ((st.begin_simulation_str S).cin_getline []).1 [] (Or.inl h2)
    exact ⟨h1, h2, h3.2, h3.1, by simpa [get_name] using h1⟩

/-! ### `__s_remove_ws`, `__s_lowercase` and `__str_contains` -/

theorem char_of_toNat (c : Char) (n : Nat) (h : c.toNat = n) : c = Char.ofNat n := by
  rw [← h, Char.ofNat_toNat]

theorem isspace_iff (c : Char) :
    isspace c = true ↔ c ∈ [' ', '\t', '\n', '\x0b', '\x0c', '\r'] := by
  constructor
  · intro h
    simp only [isspace, Bool.or_eq_true, Bool.and_eq_true, decide_eq_true_eq] at h
    rcases h with h | ⟨h1, h2⟩
    · rw [char_of_toNat c 32 h]; decide
    · obtain ⟨n, hn⟩ : ∃ n, c.toNat = n := ⟨_, rfl⟩
      rw [hn] at h1 h2
      rw [char_of_toNat c n hn]
      interval_cases n <;> decide
  · intro h
    simp only [List.mem_cons, List.mem_singleton, List.not_mem_nil, or_false] at h
    rcases h with h | h | h | h | h | h <;> subst h <;> decide

/-- C11. `__s_remove_ws(s)` is `s` with exactly the characters for which `isspace` holds
deleted and every other character kept in its place; `isspace` holds for the space,
`\t`, `\n`, `\v`, `\f` and `\r` and for nothing else; so the result has no whitespace
character. -/
theorem remove_ws_spec (s : Str) :
    __s_remove_ws s = s.filter (fun c => !isspace c) ∧
    (∀ c : Char, isspace c = true ↔ c ∈ [' ', '\t', '\n', '\x0b', '\x0c', '\r']) ∧
    (∀ c ∈ __s_remove_ws s, isspace c = false) ∧
    List.Sublist (__s_remove_ws s) s := by
  have h : __s_remove_ws s = s.filter (fun c => !isspace c) := by
    have h1 := foldl_push_eq_filter (fun c => !isspace c) s []
    simpa [__s_remove_ws] using h1
  refine ⟨h, isspace_iff, ?_, ?_⟩
  · intro c hc
    rw [h] at hc
    simpa using (List.mem_filter.mp hc).2
  · rw [h]
    exact List.filter_sublist _

theorem tolower_upper (c : Char) (h : isupper c = true) :
    (tolower c).toNat = c.toNat + 32 ∧ isupper (tolower c) = false := by
  simp only [isupper, Bool.and_eq_true, decide_eq_true_eq] at h
  obtain ⟨n, hn⟩ : ∃ n, c.toNat = n := ⟨_, rfl⟩
  rw [hn] at h
  have hc := char_of_toNat c n hn
  subst hc
  obtain ⟨h1, h2⟩ := h
  interval_cases n <;> decide

theorem tolower_other (c : Char) (h : isupper c = false) : tolower c = c := by
  simp [tolower, h]

/-- C12. `__s_lowercase(s)` has the length of `s`, and its `i`-th character is `tolower`
of the `i`-th character of `s`, where `tolower` adds 32 to the code of the letters `A`
to `Z` and leaves every other character as it is; so the result has no letter `A` to
`Z`. As in the test of the prompt,
`lowercase(collapse("Enter your name: ", false, false))` is `"enteryourname"`. -/
theorem lowercase_spec (s : Str) :
    (__s_lowercase s).length = s.length ∧
    (∀ i : Nat, (__s_lowercase s)[i]? = (s[i]?).map tolower) ∧
    (∀ c : Char, (isupper c = true ∧ (tolower c).toNat = c.toNat + 32) ∨
      (isupper c = false ∧ tolower c = c)) ∧
    (∀ c ∈ __s_lowercase s, isupper c = false) ∧
    (__s_collapse "Enter your name: ".toList false false).map __s_lowercase
      = some "enteryourname".toList := by
  refine ⟨by simp [__s_lowercase], ?_, ?_, ?_, by decide⟩
  · intro i
    simp [__s_lowercase]
  · intro c
    cases h : isupper c
    · exact Or.inr ⟨rfl, tolower_other c h⟩
    · exact Or.inl ⟨rfl, (tolower_upper c h).1⟩
  · intro c hc
    simp only [__s_lowercase, List.mem_map] at hc
    obtain ⟨a, _, ha⟩ := hc
    rw [← ha]
    cases h : isupper a
    · rw [tolower_other a h, h]
    · exact (tolower_upper a h).2

theorem matches_at_iff (s needle : Str) :
    matches_at s needle = true ↔ ∃ q, s = needle ++ q := by
  induction needle generalizing s with
  | nil => simp [matches_at]
  | cons n ns ih =>
    cases s with
    | nil => simp [matches_at]
    | cons c cs =>
      simp only [matches_at, Bool.and_eq_true, beq_iff_eq, ih, List.cons_append,
        List.cons.injEq]
      constructor
      · rintro ⟨h1, q, h2⟩
        exact ⟨q, h1, h2⟩
      · rintro ⟨q, h1, h2⟩
        exact ⟨h1, q, h2⟩

theorem find_ne_none_iff (s needle : Str) :
    find s needle ≠ none ↔ ∃ p q, s = p ++ needle ++ q := by
  induction s with
  | nil =>
    cases needle with
    | nil => simp [find]
    | cons n ns => simp [find]
  | cons c cs ih =>
    by_cases hm : matches_at (c :: cs) needle = true
    · have h1 : find (c :: cs) needle = some 0 := by simp [find, hm]
      rw [h1]
      obtain ⟨q, hq⟩ := (matches_at_iff _ _).mp hm
      exact ⟨fun _ => ⟨[], q, by simpa using hq⟩, fun _ => by simp⟩
    · have h1 : find (c :: cs) needle = (find cs needle).map (· + 1) := by simp [find, hm]
      rw [h1]
      constructor
      · intro h
        have h2 : find cs needle ≠ none := by
          intro h3
          rw [h3] at h
          exact h rfl
        obtain ⟨p, q, hpq⟩ := ih.mp h2
        exact ⟨c :: p, q, by simp [hpq]⟩
      · rintro ⟨p, q, hpq⟩
        cases p with
        | nil =>
          exfalso
          exact hm ((matches_at_iff _ _).mpr ⟨q, by simpa using hpq⟩)
        | cons a p1 =>
          simp only [List.cons_append, List.cons.injEq] at hpq
          have h2 : find cs needle ≠ none := ih.mpr ⟨p1, q, by simpa using hpq.2⟩
          cases hf : find cs needle with
          | none => exact absurd hf h2
          | some k => simp

/-- C13. `__str_contains(haystack, needle)` is true exactly when `haystack` is
`p + needle + q` for some strings `p` and `q`; it is true for the empty needle and every
haystack. `("Hello, John Doe", "John Doe")` and `("abc", "")` give true. -/
theorem str_contains_spec (haystack needle : Str) :
    (__str_contains haystack needle = true ↔ ∃ p q, haystack = p ++ needle ++ q) ∧
    __str_contains haystack [] = true ∧
    __str_contains [] [] = true ∧
    __str_contains "Hello, John Doe".toList "John Doe".toList = true ∧
    __str_contains "abc".toList [] = true := by
  have h : ∀ h n : Str, __str_contains h n = true ↔ ∃ p q, h = p ++ n ++ q := by
    intro h n
    simp only [__str_contains, bne_iff_ne]
    exact find_ne_none_iff h n
  refine ⟨h haystack needle, ?_, by decide, by decide, by decide⟩
  exact (h haystack []).mpr ⟨[], haystack, by simp⟩

/-! ### Restarting and ending a capture or a simulation -/

/-- C14. Restarting a capture resets the buffer: from every state, `begin()`, writing the
pieces of a text `A`, `begin()` again, writing the pieces of a text `B`, then `end()`
makes `end()` return exactly `B`. -/
theorem capture_restart_resets (st : Capture) (piecesA piecesB : List Str) :
    (Capture.end_capture
      (piecesB.foldl Capture.cout_write
        (Capture.begin_capture
          (piecesA.foldl Capture.cout_write (Capture.begin_capture st))))).2
      = piecesB.flatten := by
  rw [capture_writes_own _ rfl piecesB]
  simp [Capture.end_capture, Capture.begin_capture]

/-- C15. `end()` without a prior `begin()` does nothing: on a freshly constructed
`__capture_stdout` it returns the empty string and leaves `std::cout` and the instance
as they were; on a freshly constructed `__simulate_stdin` it leaves `std::cin` and the
instance as they were. -/
theorem end_without_begin_noop (dest : Nat) (delivered : List (Nat × Str)) (src : Nat)
    (eofbit failbit : Bool) (external_input : Nat → Str) :
    (Capture.construct dest delivered).end_capture = (Capture.construct dest delivered, []) ∧
    (Capture.construct dest delivered).end_capture.1.cout_rdbuf = StreamBuf.external dest ∧
    (Simulation.construct src eofbit failbit external_input).end_simulation
      = Simulation.construct src eofbit failbit external_input ∧
    (Simulation.construct src eofbit failbit external_input).end_simulation.cin_rdbuf
      = StreamBuf.external src := by
  simp [Capture.construct, Capture.end_capture, Simulation.construct,
    Simulation.end_simulation]

/-- C16. `end()` is idempotent on the state: from every state of `std::cout` and a
`__capture_stdout`, a second `end()` in a row changes nothing and returns the empty
string; from every state of `std::cin` and a `__simulate_stdin`, a second `end()` in a
row changes nothing. -/
theorem end_idempotent (c : Capture) (s : Simulation) :
    c.end_capture.1.end_capture = (c.end_capture.1, []) ∧
    s.end_simulation.end_simulation = s.end_simulation := by
  constructor
  · cases hp : c.p_cout_streambuf <;> simp [Capture.end_capture, hp]
  · cases hp : s.p_sim_streambuf <;> simp [Simulation.end_simulation, hp]

/-! ### Single-line input of `__s_multiline_collapse` -/

/-- C20. On a string without a line feed `__s_multiline_collapse` agrees with
`__s_collapse` called with `keep_space = true`, for either value of `keep_punct`; both
return a string. -/
theorem multiline_single_line (s : Str) (keep_punct : Bool) (h : '\n' ∉ s) :
    __s_multiline_collapse s keep_punct = __s_collapse s keep_punct true ∧
    ∃ r, __s_collapse s keep_punct true = some r := by
  have hall : ∀ x ∈ s, ¬ ((x == '\n') = true) := by
    intro x hx hc
    have : x = '\n' := by simpa using hc
    subst this
    exact h hx
  have hsingle := List.splitOnP_eq_single (fun c => c == '\n') s hall
  have hc : __s_collapse s keep_punct true
      = some (line_collapse_ref keep_punct s) := by
    simp [__s_collapse, reduce_ws_eq_ref, strip_loop_eq_filter, line_collapse_ref]
  refine ⟨?_, _, hc⟩
  rw [hc, multiline_collapse_eq_ref]
  simp [multiline_collapse_ref, hsingle]

/-- C20, witness: a single-line input with runs of spaces and punctuation, and the empty
input. -/
theorem multiline_single_line_witness :
    '\n' ∉ "a  b, c".toList ∧
    __s_multiline_collapse "a  b, c".toList false = __s_collapse "a  b, c".toList false true ∧
    __s_multiline_collapse "a  b, c".toList false = some "a b c".toList ∧
    __s_multiline_collapse [] false = __s_collapse [] false true :=
  ⟨by decide, (multiline_single_line "a  b, c".toList false (by decide)).1, by decide,
    by decide⟩

/-! ### `__contains` -/

theorem std_find_le {α : Type} [BEq α] (c : List α) (v : α) : std_find c v ≤ c.length := by
  induction c with
  | nil => simp [std_find]
  | cons x xs ih =>
    by_cases h : (x == v) = true
    · simp [std_find, h]
    · simp [std_find, h, ih]

theorem contains_iff {α : Type} [BEq α] (c : List α) (v : α) :
    __contains c v = true ↔ ∃ x ∈ c, (x == v) = true := by
  induction c with
  | nil => simp [__contains, std_find]
  | cons x xs ih =>
    by_cases h : (x == v) = true
    · simp [__contains, std_find, h]
    · have h1 : __contains (x :: xs) v = __contains xs v := by
        simp [__contains, std_find, h]
      rw [h1, ih]
      simp [h]

theorem contains_congr {α : Type} [BEq α] (c c2 : List α) (v : α)
    (h : ∀ x, x ∈ c ↔ x ∈ c2) : __contains c2 v = __contains c v := by
  have h1 : __contains c2 v = true ↔ __contains c v = true := by
    rw [contains_iff, contains_iff]
    constructor
    · rintro ⟨x, hx, hv⟩
      exact ⟨x, (h x).mpr hx, hv⟩
    · rintro ⟨x, hx, hv⟩
      exact ⟨x, (h x).mp hx, hv⟩
  cases h2 : __contains c v
  · cases h3 : __contains c2 v
    · rfl
    · rw [h1.mp h3] at h2
      exact absurd h2 (by simp)
  · exact h1.mpr h2

/-- C18. `__contains(c, v)` is true exactly when some element `x` of `c` has `x == v`,
for whatever `==` the element type has; it gives the same answer on every permutation
`c2` of `c` and on `c` with its duplicates removed, and false on the empty sequence. -/
theorem contains_spec {α : Type} [BEq α] [DecidableEq α] (c c2 : List α) (v : α)
    (hperm : c.Perm c2) :
    (__contains c v = true ↔ ∃ x ∈ c, (x == v) = true) ∧
    __contains c2 v = __contains c v ∧
    __contains c.dedup v = __contains c v ∧
    __contains ([] : List α) v = false := by
  refine ⟨contains_iff c v, ?_, ?_, by simp [__contains, std_find]⟩
  · exact contains_congr c c2 v (fun x => hperm.mem_iff)
  · exact contains_congr c c.dedup v (fun x => List.mem_dedup.symm)

/-- C18, witness: a sequence with a duplicate and one of its permutations. -/
theorem contains_spec_witness :
    List.Perm [1, 2, 2] [2, 1, 2] ∧
    __contains [2, 1, 2] 2 = __contains [1, 2, 2] 2 ∧
    __contains [1, 2, 2] 2 = true ∧
    __contains [1, 2, 2] 3 = false :=
  ⟨List.Perm.swap 2 1 [2],
    (contains_spec [1, 2, 2] [2, 1, 2] 2 (List.Perm.swap 2 1 [2])).2.1, by decide, by decide⟩

/-! ### `__rand_string` -/

theorem rand_int_66 (r : Nat) : __rand_int 0 66 r = ((r % 66 : Nat) : Int) := by
  simp only [__rand_int, Int.sub_zero, Int.add_zero]
  exact (Int.ofNat_tmod r 66).symm

theorem valid_chars_index (k : Nat) (hk : k < 66) :
    ∃ ch, valid_chars[k]? = some ch ∧ ch ∈ valid_chars_literal := by
  have hlen : valid_chars_literal.length = 66 := by decide
  have hk1 : k < valid_chars_literal.length := by omega
  refine ⟨valid_chars_literal[k], ?_, List.getElem_mem _⟩
  simp only [valid_chars]
  rw [List.getElem?_append_left hk1]
  exact List.getElem?_eq_getElem hk1

theorem rand_string_loop_spec (rand : Nat → Nat) :
    ∀ (remaining calls : Nat) (result : Str),
      ∃ str, rand_string_loop rand remaining calls result = some (result ++ str) ∧
        str.length = remaining ∧ ∀ c ∈ str, c ∈ valid_chars_literal := by
  intro remaining
  induction remaining with
  | zero =>
    intro calls result
    exact ⟨[], by simp [rand_string_loop], rfl, by simp⟩
  | succ n ih =>
    intro calls result
    obtain ⟨ch, hch, hmem⟩ := valid_chars_index (rand calls % 66) (Nat.mod_lt _ (by decide))
    obtain ⟨str, h1, h2, h3⟩ := ih (calls + 1) (result ++ [ch])
    refine ⟨ch :: str, ?_, by simp [h2], ?_⟩
    · have hnn : (0 : Int) ≤ ((rand calls % 66 : Nat) : Int) := Int.ofNat_nonneg _
      rw [rand_string_loop]
      simp only [rand_int_66, Int.toNat_ofNat, hch, h1, hnn, if_true]
      simp
    · intro c hc
      rcases List.mem_cons.mp hc with rfl | hc
      · exact hmem
      · exact h3 c hc

/-- C19. For every length `n ≥ 0` and every sequence `rand` of values returned by
`rand()`, `__rand_string(n)` returns a string of exactly `n` characters, each one of the
characters of the `valid_chars` literal. The index `__rand_int(0, 66)` is always in
`0..65`; the literal has 66 characters, all printable, so the index never reaches the
terminating NUL at position 66 nor a position outside the array. -/
theorem rand_string_spec (rand : Nat → Nat) (calls n : Nat) :
    (∃ str, __rand_string rand calls (n : Int) = some str ∧ str.length = n ∧
      ∀ c ∈ str, c ∈ valid_chars_literal) ∧
    (∀ r : Nat, 0 ≤ __rand_int 0 66 r ∧ __rand_int 0 66 r ≤ 65) ∧
    valid_chars_literal.length = 66 ∧
    valid_chars[66]? = some (Char.ofNat 0) ∧
    (∀ c ∈ valid_chars_literal, 32 < c.toNat ∧ c.toNat < 127) := by
  refine ⟨?_, ?_, by decide, by decide, by decide⟩
  · obtain ⟨str, h1, h2, h3⟩ := rand_string_loop_spec rand n calls []
    exact ⟨str, by simpa [__rand_string] using h1, h2, h3⟩
  · intro r
    rw [rand_int_66]
    have : r % 66 < 66 := Nat.mod_lt _ (by decide)
    omega

/-! ### Number of iterations of the loop of `__s_reduce_ws` -/

theorem wsRunCount_nonws_append (ws w s : Str) (hw : ∀ x ∈ w, inSet ws x = false) :
    wsRunCount ws (w ++ s) = wsRunCount ws s := by
  induction w with
  | nil => rfl
  | cons a t ih =>
    have ha : inSet ws a = false := hw a (by simp)
    have e : wsRunCount ws (a :: (t ++ s)) = wsRunCount ws (t ++ s) := by
      simp [wsRunCount, ha]
    rw [List.cons_append, e, ih (fun x hx => hw x (by simp [hx]))]

theorem wsRunCount_ws_run (ws g : Str) (d : Char) (s : Str)
    (hg : ∀ x ∈ g, inSet ws x = true) (hne : g ≠ []) (hd : inSet ws d = false) :
    wsRunCount ws (g ++ d :: s) = wsRunCount ws s + 1 := by
  have h := List.splitOnP_first (fun c => !inSet ws c) g
    (by intro x hx; simp [hg x hx]) d (by simp [hd]) s
  simp [wsRunCount, h, hne]

theorem reduce_ws_loop_no_ws (fill ws : Str) (fuel : Nat) (done rest : Str)
    (h : ∀ c ∈ rest, inSet ws c = false) :
    reduce_ws_loop fill ws fuel (done ++ rest) (find_first_of (done ++ rest) ws done.length)
      = some (done ++ fill.intercalate (nonWsRuns ws rest)) := by
  have hf : firstIdx (fun c => inSet ws c) rest = none := (firstIdx_eq_none_iff _ rest).mpr h
  rw [find_first_of_append ws done rest _ rfl, hf, Option.map_none', reduce_ws_loop_none]
  by_cases hne : rest = []
  · subst hne
    simp [nonWsRuns_nil, List.intercalate]
  · rw [nonWsRuns_single ws rest h hne]
    simp [List.intercalate]

theorem reduce_ws_loop_step (fill ws done w : Str) (c : Char) (rest1 : Str)
    (ht : Trimmed ws (w ++ c :: rest1)) (h2 : ∀ x ∈ w, inSet ws x = false)
    (h3 : inSet ws c = true) :
    ∃ d rest2, Trimmed ws (d :: rest2) ∧
      wsRunCount ws (w ++ c :: rest1) = wsRunCount ws (d :: rest2) + 1 ∧
      fill.intercalate (nonWsRuns ws (w ++ c :: rest1))
        = w ++ fill ++ fill.intercalate (nonWsRuns ws (d :: rest2)) ∧
      ∀ n, reduce_ws_loop fill ws (n + 1) (done ++ (w ++ c :: rest1))
          (find_first_of (done ++ (w ++ c :: rest1)) ws done.length)
        = reduce_ws_loop fill ws n (((done ++ w) ++ fill) ++ d :: rest2)
          (find_first_of (((done ++ w) ++ fill) ++ d :: rest2) ws ((done ++ w) ++ fill).length) := by
  have hw : w ≠ [] := by
    intro hw
    subst hw
    have h4 := ht.1 c (by simp)
    rw [h4] at h3
    exact absurd h3 (by simp)
  rcases split_at_first (fun x => !inSet ws x) (c :: rest1) with h | ⟨g, d, rest2, h4, h5, h6⟩
  · exfalso
    obtain ⟨b, hb⟩ : ∃ b, (c :: rest1).getLast? = some b :=
      ⟨(c :: rest1).getLast (by simp), List.getLast?_eq_getLast _ _⟩
    have hlast : (w ++ c :: rest1).getLast? = some b := by
      rw [List.getLast?_append, hb]; rfl
    have h7 := h b (List.mem_of_mem_getLast? hb)
    have h8 := ht.2 b hlast
    simp [h8] at h7
  · have hd : inSet ws d = false := by simpa using h6
    have hgws : ∀ x ∈ g, inSet ws x = true := by
      intro x hx
      simpa using h5 x hx
    have hg : g ≠ [] := by
      intro hg
      subst hg
      simp only [List.nil_append, List.cons.injEq] at h4
      rw [← h4.1, h3] at hd
      exact absurd hd (by simp)
    have ht2 : Trimmed ws (d :: rest2) := by
      refine ⟨?_, ?_⟩
      · intro a ha
        simp only [List.head?_cons, Option.some.injEq] at ha
        rw [← ha]; exact hd
      · intro b hb
        apply ht.2 b
        have e3 : w ++ c :: rest1 = (w ++ g) ++ (d :: rest2) := by
          rw [h4]; simp
        rw [e3, List.getLast?_append, hb]
        rfl
    refine ⟨d, rest2, ht2, ?_, ?_, ?_⟩
    · rw [h4, wsRunCount_nonws_append ws w _ h2, wsRunCount_ws_run ws g d rest2 hgws hg hd]
      have e := wsRunCount_nonws_append ws [d] rest2 (by simpa using hd)
      rw [List.singleton_append] at e
      rw [e]
    · have hruns : nonWsRuns ws (w ++ c :: rest1) = w :: nonWsRuns ws (d :: rest2) := by
        rw [nonWsRuns_first ws w c rest1 h2 h3, if_neg hw]
        have e4 : nonWsRuns ws (c :: rest1) = nonWsRuns ws (d :: rest2) := by
          rw [h4, nonWsRuns_ws_append ws g _ hgws]
        have e5 := nonWsRuns_first ws [] c rest1 (by simp) h3
        simp only [List.nil_append, if_true] at e5
        rw [← e5, e4]
        rfl
      rw [hruns, intercalate_cons_of_ne_nil fill w _ (nonWsRuns_ne_nil ws d rest2 hd)]
    · intro n
      have hfo : find_first_of (done ++ (w ++ c :: rest1)) ws done.length
          = some (w.length + done.length) := by
        rw [find_first_of_append ws done _ _ rfl, firstIdx_hit _ w c rest1 h2 h3]
        rfl
      have e1 : done ++ (w ++ c :: rest1) = (done ++ w) ++ (g ++ d :: rest2) := by
        rw [h4]; simp
      have hfn : find_first_not_of (done ++ (w ++ c :: rest1)) ws (w.length + done.length)
          = some (g.length + (w.length + done.length)) := by
        rw [e1, find_first_not_of_append ws (done ++ w) _ _ (by simp; omega),
          firstIdx_hit _ g d rest2 h5 h6]
        rfl
      have hrep : replace (done ++ (w ++ c :: rest1)) (w.length + done.length)
          (g.length + (w.length + done.length) - (w.length + done.length)) fill
          = some ((done ++ w) ++ fill ++ (d :: rest2)) := by
        rw [e1]
        exact replace_mid (done ++ w) g (d :: rest2) fill _ _ (by simp; omega) (by omega)
      have hpos : w.length + done.length + fill.length = ((done ++ w) ++ fill).length := by
        simp only [List.length_append]; omega
      rw [hfo, reduce_ws_loop]
      simp only [hfn, hrep]
      rw [hpos]

theorem reduce_ws_loop_count (fill ws : Str) :
    ∀ (fuel : Nat) (done rest : Str), wsRunCount ws rest ≤ fuel → Trimmed ws rest →
      reduce_ws_loop fill ws fuel (done ++ rest) (find_first_of (done ++ rest) ws done.length)
        = some (done ++ fill.intercalate (nonWsRuns ws rest)) := by
  intro fuel
  induction fuel with
  | zero =>
    intro done rest hc ht
    rcases split_at_first (inSet ws) rest with h | ⟨w, c, rest1, h1, h2, h3⟩
    · exact reduce_ws_loop_no_ws fill ws 0 done rest h
    · subst h1
      obtain ⟨d, rest2, _, hcount, _, _⟩ := reduce_ws_loop_step fill ws done w c rest1 ht h2 h3
      omega
  | succ n ih =>
    intro done rest hc ht
    rcases split_at_first (inSet ws) rest with h | ⟨w, c, rest1, h1, h2, h3⟩
    · exact reduce_ws_loop_no_ws fill ws (n + 1) done rest h
    · subst h1
      obtain ⟨d, rest2, ht2, hcount, hjoin, hstep⟩ :=
        reduce_ws_loop_step fill ws done w c rest1 ht h2 h3
      rw [hstep n, ih _ _ (by omega) ht2, hjoin]
      simp

/-- C17. For every string, every fill (the empty one and one with whitespace characters
included) and every whitespace set (the empty one included), `__s_reduce_ws` returns a
string: neither `substr` nor `replace` is called out of range and the loop ends. The
loop already ends when it is allowed only as many iterations as the trimmed input has
maximal runs of whitespace characters, so its body runs at most once per run. -/
theorem reduce_ws_total (s fill ws : Str) :
    (∃ t r, __s_trim_ws s ws = some t ∧ __s_reduce_ws s fill ws = some r ∧
      reduce_ws_loop fill ws (wsRunCount ws t) t (find_first_of t ws 0) = some r) ∧
    __s_reduce_ws " a \t b ".toList [] = some "ab".toList ∧
    __s_reduce_ws " a \t b ".toList " \t ".toList = some "a \t b".toList ∧
    __s_reduce_ws " a \t b ".toList "-".toList [] = some " a \t b ".toList ∧
    wsRunCount " \t\r\n".toList "a \t b  c".toList = 2 := by
  refine ⟨?_, by decide, by decide, by decide, by decide⟩
  obtain ⟨l, t, r, hs, hl, hr, ht⟩ := trim_decomp ws s
  have htrim := trim_of_decomp ws l t r hl hr ht
  rw [← hs] at htrim
  have hloop := reduce_ws_loop_count fill ws (wsRunCount ws t) [] t (Nat.le_refl _) ht
  simp only [List.nil_append, List.length_nil] at hloop
  have hfull := reduce_ws_loop_spec fill ws t.length [] t (Nat.le_refl _) ht
  simp only [List.nil_append, List.length_nil] at hfull
  refine ⟨t, _, htrim, ?_, hloop⟩
  simp only [__s_reduce_ws, htrim, hfull]

/-! ### Punctuation is stripped after whitespace is collapsed -/

/-- C21. With `keep_space = true` and `keep_punct = false`, `__s_collapse` does not always
return whitespace-collapsed text: on `"a , b"` it returns `"a  b"`, with two adjacent
spaces, and both `__s_reduce_ws` and `__s_collapse` (same flags) change that result to
`"a b"`. -/
theorem collapse_not_ws_collapsed :
    __s_collapse "a , b".toList false true = some "a  b".toList ∧
    __s_reduce_ws "a  b".toList = some "a b".toList ∧
    __s_collapse "a  b".toList false true = some "a b".toList ∧
    ∃ s r, __s_collapse s false true = some r ∧
      (∃ l q, r = l ++ [' ', ' '] ++ q) ∧
      __s_reduce_ws r ≠ some r ∧
      __s_collapse r false true ≠ some r := by
  refine ⟨by decide, by decide, by decide, "a , b".toList, "a  b".toList, by decide,
    ⟨['a'], ['b'], by decide⟩, by decide, by decide⟩

end DoctestExt
